import Mathlib

/-!
A shallow embedding of the GoSkrafl crossword-game engine core
(board model, DAWG navigation, move validation and scoring, and the
Appel-Jacobson move generator), translated from the Go sources, together
with theorems checking the natural-language specification against it.

Conventions used throughout:
* Go `int` is embedded as `Int`; Go `uint` bit sets as `Nat` (the full
  mask `^uint(0)` is the explicit constant `UINT_MAX = 2^64 - 1`).
* Go `rune` is `Char`; Go strings that the engine manipulates rune-wise
  are embedded as `List Char`.
* Go `nil` pointers become `Option`; functions that Go can only run on
  non-nil data take the payload directly at call sites where the source
  dereferences unconditionally.
* Loops over the 15x15 board that Go bounds by running off the board
  edge are embedded with an explicit fuel argument that is at least the
  maximal possible number of iterations, so the fuel never runs out.
-/

set_option maxRecDepth 4000

namespace GoSkrafl

/-- BoardSize is the size of the Board (board.go). -/
def BoardSize : Int := 15

/-- RackSize contains the number of slots in the Rack (board.go). -/
def RackSize : Nat := 7

/-- Direction indices into AdjSquares (board.go: ABOVE/LEFT/RIGHT/BELOW). -/
def ABOVE : Int := 0

/-- Direction index LEFT (board.go). -/
def LEFT : Int := 1

/-- Direction index RIGHT (board.go). -/
def RIGHT : Int := 2

/-- Direction index BELOW (board.go). -/
def BELOW : Int := 3

/-- Tile is a tile from the Bag (board.go). -/
structure Tile where
  letter : Char
  meaning : Char
  score : Int
  playedBy : Int := 0
deriving DecidableEq, Repr

/-- Square is a Board square or Rack slot that can hold a Tile (board.go). -/
structure Square where
  tile : Option Tile := none
  letterMultiplier : Int := 1
  wordMultiplier : Int := 1
  row : Int := 0
  col : Int := 0
deriving DecidableEq, Repr

/-- Word multiplication factors on a standard board (board.go). -/
def WORD_MULTIPLIERS_STANDARD : List String :=
  ["311111131111113",
   "121111111111121",
   "112111111111211",
   "111211111112111",
   "111121111121111",
   "111111111111111",
   "111111111111111",
   "311111121111113",
   "111111111111111",
   "111111111111111",
   "111121111121111",
   "111211111112111",
   "112111111111211",
   "121111111111121",
   "311111131111113"]

/-- Letter multiplication factors on a standard board (board.go). -/
def LETTER_MULTIPLIERS_STANDARD : List String :=
  ["111211111112111",
   "111113111311111",
   "111111212111111",
   "211111121111112",
   "111111111111111",
   "131113111311131",
   "112111212111211",
   "111211111112111",
   "112111212111211",
   "131113111311131",
   "111111111111111",
   "211111121111112",
   "111111212111111",
   "111113111311111",
   "111211111112111"]

/-- Word multiplication factors on an Explo board (board.go). -/
def WORD_MULTIPLIERS_EXPLO : List String :=
  ["311111131111113",
   "111111112111111",
   "111111111211111",
   "111211111111111",
   "111121111111111",
   "111112111111211",
   "111111211111121",
   "311111121111113",
   "121111112111111",
   "112111111211111",
   "111111111121111",
   "111111111112111",
   "111112111111111",
   "111111211111111",
   "311111131111113"]

/-- Letter multiplication factors on an Explo board (board.go). -/
def LETTER_MULTIPLIERS_EXPLO : List String :=
  ["111121111112111",
   "131112111111131",
   "112111311111211",
   "111111121131112",
   "211111111113111",
   "121111111211111",
   "113111112111111",
   "111211111112111",
   "111111211111311",
   "111112111111121",
   "111311111111112",
   "211131121111111",
   "112111113111211",
   "131111111211131",
   "111211111121111"]

/-- The board type string for a standard board. -/
def standardType : String := "standard"

/-- The board type string for an Explo board. -/
def exploType : String := "explo"

/-- Board represents the board as a matrix of Squares (board.go).
The Go `Squares [15][15]Square` array is embedded as a total function
from (row, col) to `Square`; out-of-range arguments are never consulted
because every access in the translation goes through the same bounds
checks that the Go code performs. The Go `Adjacents` cache of pointers
into `Squares` is embedded as the derived function `Board.adjacent`
below, which is extensionally what the cache holds. -/
structure Board where
  type : String := ""
  squares : Int → Int → Square
  numTiles : Int := 0

/-- Digit character to multiplier value, as in Go `int(s[i][j]) - zero`. -/
def digitVal (s : String) (j : Nat) : Int :=
  (Int.ofNat (s.toList.getD j '1').toNat) - 48

/-- Sq returns a pointer to a Board square; nil out of range (board.go). -/
def Board.Sq (board : Board) (row col : Int) : Option Square :=
  if row < 0 || row ≥ BoardSize || col < 0 || col ≥ BoardSize then none
  else some (board.squares row col)

/-- TileAt returns the Tile in a given Square, nil out of range (board.go). -/
def Board.TileAt (board : Board) (row col : Int) : Option Tile :=
  if row < 0 || row ≥ BoardSize || col < 0 || col ≥ BoardSize then none
  else (board.squares row col).tile

/-- Adjacent square in the given direction, mirroring the `Adjacents`
cache built by `Board.Init` in board.go: the entry is nil exactly when
the neighbour would fall off the board. -/
def Board.adjacent (board : Board) (row col direction : Int) : Option Square :=
  if direction = ABOVE then
    if row > 0 then board.Sq (row - 1) col else none
  else if direction = BELOW then
    if row < BoardSize - 1 then board.Sq (row + 1) col else none
  else if direction = LEFT then
    if col > 0 then board.Sq row (col - 1) else none
  else if direction = RIGHT then
    if col < BoardSize - 1 then board.Sq row (col + 1) else none
  else none

/-- Coordinate stores a Board co-ordinate as a row, col tuple (move.go). -/
structure Coordinate where
  row : Int
  col : Int
deriving DecidableEq, Repr

/-- Return the coordinate of the start square for this board type
(board.go `Board.StartSquare`). -/
def Board.StartSquare (board : Board) : Coordinate :=
  if board.type = standardType then ⟨7, 7⟩ else ⟨3, 3⟩

/-- Return true if the board has a tile in the start square (board.go). -/
def Board.HasStartTile (board : Board) : Bool :=
  let startSquare := board.StartSquare
  match board.Sq startSquare.row startSquare.col with
  | none => false
  | some sq => sq.tile.isSome

/-- Place a tile in a board square (board.go `Board.PlaceTile`).
Returns the updated board and the Go return value. Note that the Go
code does not test whether the square already holds a tile. -/
def Board.PlaceTile (board : Board) (row col : Int) (tile : Tile) :
    Board × Bool :=
  match board.Sq row col with
  | none => (board, false)
  | some _ =>
    ({ board with
        squares := fun r c =>
          if r = row ∧ c = col then
            { board.squares r c with tile := some tile }
          else board.squares r c,
        numTiles := board.numTiles + 1 }, true)

/-- NumAdjacentTiles returns the number of tiles on the Board that are
adjacent to the given coordinate (board.go). -/
def Board.NumAdjacentTiles (board : Board) (row col : Int) : Int :=
  [ABOVE, LEFT, RIGHT, BELOW].foldl
    (fun count d =>
      match board.adjacent row col d with
      | some sq => if sq.tile.isSome then count + 1 else count
      | none => count) 0

/-- One step of the fragment walk of board.go `Board.Fragment`: the walk
follows the adjacency chain while the neighbouring square holds a tile.
The fuel is at least `BoardSize`, which bounds the walk on any board. -/
def Board.fragmentAux (board : Board) (direction : Int) :
    Nat → Int → Int → List Tile
  | 0, _, _ => []
  | fuel + 1, row, col =>
    match board.adjacent row col direction with
    | none => []
    | some sq =>
      match sq.tile with
      | none => []
      | some t => t :: board.fragmentAux direction fuel sq.row sq.col

/-- Fragment returns a list of the tiles that extend from the square at
row, col in the direction specified (board.go `Board.Fragment`). -/
def Board.Fragment (board : Board) (row col direction : Int) : List Tile :=
  if row < 0 || col < 0 || row ≥ BoardSize || col ≥ BoardSize then []
  else if direction < ABOVE || direction > BELOW then []
  else board.fragmentAux direction 15 row col

/-- WordFragment returns the word formed by the tile sequence emanating
from the given square in the indicated direction (board.go). The Go
loop prepends when the direction is LEFT or ABOVE, reversing the
fragment into reading order. -/
def Board.WordFragment (board : Board) (row col direction : Int) :
    List Char :=
  let frag := board.Fragment row col direction
  if direction = LEFT ∨ direction = ABOVE then
    frag.foldl (fun result t => t.meaning :: result) []
  else
    frag.foldl (fun result t => result ++ [t.meaning]) []

/-- CrossScore returns whether a crossing exists and the sum of the
scores of the tiles crossing the given square (board.go). -/
def Board.CrossScore (board : Board) (row col : Int) (horizontal : Bool) :
    Bool × Int :=
  let d1 := if horizontal then LEFT else ABOVE
  let d2 := if horizontal then RIGHT else BELOW
  let f1 := board.Fragment row col d1
  let f2 := board.Fragment row col d2
  (!(f1.isEmpty && f2.isEmpty),
    (f1.map Tile.score).sum + (f2.map Tile.score).sum)

/-- CrossWords returns the word fragments before and after the given
coordinate on the board, perpendicular reading order (board.go). -/
def Board.CrossWords (board : Board) (row col : Int) (horizontal : Bool) :
    List Char × List Char :=
  let d1 := if horizontal then LEFT else ABOVE
  let d2 := if horizontal then RIGHT else BELOW
  let left := (board.Fragment row col d1).foldl
    (fun result t => t.meaning :: result) []
  let right := (board.Fragment row col d2).foldl
    (fun result t => result ++ [t.meaning]) []
  (left, right)

/-- Init initializes an empty board (board.go `Board.Init`). The Go code
panics on an unknown board type; this is embedded as `none`. -/
def Board.init (boardType : String) : Option Board :=
  if boardType ≠ standardType ∧ boardType ≠ exploType then none
  else
    let letterMultipliers :=
      if boardType = standardType then LETTER_MULTIPLIERS_STANDARD
      else LETTER_MULTIPLIERS_EXPLO
    let wordMultipliers :=
      if boardType = standardType then WORD_MULTIPLIERS_STANDARD
      else WORD_MULTIPLIERS_EXPLO
    some
      { type := boardType,
        squares := fun r c =>
          { row := r, col := c, tile := none,
            letterMultiplier :=
              digitVal (letterMultipliers.getD r.toNat "") c.toNat,
            wordMultiplier :=
              digitVal (wordMultipliers.getD r.toNat "") c.toNat },
        numTiles := 0 }

/-- The number of board squares that currently hold a tile. This is the
specification-side counterpart of the `num_tiles` bookkeeping: the spec
invariant says `num_tiles` equals this count. -/
def Board.occupiedCount (board : Board) : Nat :=
  ((List.range 15).flatMap fun r =>
    (List.range 15).filter fun c =>
      (board.squares (Int.ofNat r) (Int.ofNat c)).tile.isSome).length

/-- Remove a single instance of a given rune from a slice of runes
(utils.go `RemoveRune`, 2024 version: only the first occurrence is cut). -/
def RemoveRune : List Char → Char → List Char
  | [], _ => []
  | c :: rest, r => if c = r then rest else c :: RemoveRune rest r

/-- Return true if a slice of runes contains a given rune (utils.go). -/
def ContainsRune (s : List Char) (r : Char) : Bool :=
  s.any (fun c => c = r)

/-- Alphabet stores the set of runes found within the DAWG and supports
bit map (set) operations (dawg.go). -/
structure Alphabet where
  asRunes : List Char

/-- The bit assigned to a rune by `Alphabet.Init` in dawg.go: the loop
stores `1 << i` under each rune, so a rune that occurs more than once
keeps the bit of its last occurrence; absent runes read as 0 from the
Go map. -/
def Alphabet.bitMap (a : Alphabet) (r : Char) : Nat :=
  a.asRunes.enum.foldl (fun acc p => if p.2 = r then 1 <<< p.1 else acc) 0

/-- The set of all alphabet bits, as accumulated by `Alphabet.Init`. -/
def Alphabet.allSet (a : Alphabet) : Nat :=
  a.asRunes.enum.foldl (fun acc p => acc ||| (1 <<< p.1)) 0

/-- Helper for `MakeSet`: the Go loop returns `allSet` as soon as it
meets a `?`, otherwise ors the bits together (dawg.go). -/
def Alphabet.makeSetAux (a : Alphabet) : List Char → Nat → Nat
  | [], s => s
  | r :: rest, s =>
    if r = '?' then a.allSet else a.makeSetAux rest (s ||| a.bitMap r)

/-- MakeSet converts a list of runes to a bit map; if any of the runes
is `?`, a bit map with all alphabet bits set is returned (dawg.go). -/
def Alphabet.MakeSet (a : Alphabet) (runes : List Char) : Nat :=
  a.makeSetAux runes 0

/-- Member checks whether a rune is represented in a bit map (dawg.go). -/
def Alphabet.Member (a : Alphabet) (r : Char) (set : Nat) : Bool :=
  (set &&& a.bitMap r) ≠ 0

/-- Length returns the number of runes in the Alphabet (dawg.go). -/
def Alphabet.Length (a : Alphabet) : Nat :=
  a.asRunes.length

/-- The Go expression `^uint(0)`: all bits of a 64-bit word. -/
def UINT_MAX : Nat := 2 ^ 64 - 1

/-- navState holds a navigation state, i.e. an edge where a prefix
leads to a nextNode (dawg.go).  The field `pfx` is the Go `prefix`
field; `nextNode = 0` encodes the absence of a next node, exactly as
the Go code uses offset 0 (the root, never a successor) as sentinel. -/
structure NavEdge where
  pfx : List Char
  nextNode : Nat
deriving DecidableEq, Repr

/-- Dawg encapsulates the compressed Directed Acyclic Word Graph
(dawg.go). The byte buffer `b` together with the decoder
`Dawg.iterNode` is embedded as its decoded view: `edges offset` is the
list of navigation states that `iterNode(offset)` yields, and
`headerFinal offset` is the test `b[offset] & 0x80 != 0` on a node
header. The `iterNodeCache` and the cross-set LRU cache memoise pure
functions of their keys and are semantically transparent, so they are
not modelled. The Go graph is finite and acyclic, so every navigation
terminates; the field `fuel` carries a bound on the number of node
descents of any navigation through this graph. -/
structure Dawg where
  edges : Nat → List NavEdge
  headerFinal : Nat → Bool
  alphabet : Alphabet
  fuel : Nat

/-- Navigator is an interface that describes behaviors that control
the navigation of a Dawg (navigators.go). The Go methods mutate the
navigator in place; here each takes and returns the navigator state. -/
structure Navigator (σ : Type) where
  IsAccepting : σ → Bool
  Accepts : σ → Char → Bool × σ
  Accept : σ → List Char → Bool → Option NavEdge → σ
  PushEdge : σ → Char → Bool × σ
  PopEdge : σ → Bool × σ
  Done : σ → σ

/-- FromEdge navigates along an edge in the Dawg (navigators.go
`Navigation.FromEdge`). The prefix is walked rune by rune; a `|` in
the prefix marks a word boundary, and a completed prefix is a boundary
when there is no next node or the next node's header is final. When
`isResumable` is set the full navigation state is passed to Accept.
The recursion into the next node, which the Go code performs by
calling `FromNode`, is the `descend` argument; `navFromNode` below
ties the knot, spending one unit of fuel per node descent (the Go
graph is acyclic, so it needs none). -/
def navFromEdge (d : Dawg) (nv : Navigator σ) (isResumable : Bool)
    (descend : Nat → List Char → σ → σ) :
    List Char → Nat → List Char → σ → σ
  | [], nextNode, matched, s =>
    if nextNode ≠ 0 && nv.IsAccepting s then descend nextNode matched s
    else s
  | [c], nextNode, matched, s =>
    if nv.IsAccepting s then
      let (ok, s1) := nv.Accepts s c
      if ok then
        let matched1 := matched ++ [c]
        let final := nextNode = 0 || d.headerFinal nextNode
        let s2 := nv.Accept s1 matched1 final
          (if isResumable then some ⟨[], nextNode⟩ else none)
        if nextNode ≠ 0 && nv.IsAccepting s2 then descend nextNode matched1 s2
        else s2
      else s1
    else s
  | c :: '|' :: rest2, nextNode, matched, s =>
    if nv.IsAccepting s then
      let (ok, s1) := nv.Accepts s c
      if ok then
        let matched1 := matched ++ [c]
        let s2 := nv.Accept s1 matched1 true
          (if isResumable then some ⟨rest2, nextNode⟩ else none)
        navFromEdge d nv isResumable descend rest2 nextNode matched1 s2
      else s1
    else s
  | c :: c2 :: rest3, nextNode, matched, s =>
    if nv.IsAccepting s then
      let (ok, s1) := nv.Accepts s c
      if ok then
        let matched1 := matched ++ [c]
        let s2 := nv.Accept s1 matched1 false
          (if isResumable then some ⟨c2 :: rest3, nextNode⟩ else none)
        navFromEdge d nv isResumable descend (c2 :: rest3) nextNode matched1 s2
      else s1
    else s

/-- The edge iteration inside `FromNode`: push the edge, walk it, and
pop, stopping early when `PopEdge` returns false (navigators.go). -/
def navEdgeLoop (nv : Navigator σ)
    (walk : List Char → Nat → List Char → σ → σ) :
    List NavEdge → List Char → σ → σ
  | [], _, s => s
  | e :: rest, matched, s =>
    let (enter, s1) := nv.PushEdge s (e.pfx.headD ' ')
    if enter then
      let s2 := walk e.pfx e.nextNode matched s1
      let (cont, s3) := nv.PopEdge s2
      if cont then navEdgeLoop nv walk rest matched s3 else s3
    else navEdgeLoop nv walk rest matched s1

/-- FromNode continues a navigation from a node in the Dawg,
enumerating through outgoing edges until the navigator is satisfied
(navigators.go `Navigation.FromNode`). -/
def navFromNode (d : Dawg) (nv : Navigator σ) (isResumable : Bool) :
    Nat → Nat → List Char → σ → σ
  | 0, _, _, s => s
  | fuel + 1, offset, matched, s =>
    navEdgeLoop nv
      (navFromEdge d nv isResumable (navFromNode d nv isResumable fuel))
      (d.edges offset) matched s

/-- Go starts a navigation on the underlying Dawg using the given
Navigator (navigators.go `Navigation.Go`). -/
def Navigation.Go (d : Dawg) (nv : Navigator σ) (isResumable : Bool)
    (fuel : Nat) (s : σ) : σ :=
  let s := if nv.IsAccepting s then navFromNode d nv isResumable fuel 0 [] s else s
  nv.Done s

/-- Resume continues a navigation from a previously saved navigation
state (navigators.go `Navigation.Resume`; note that `Dawg.Resume`
creates a fresh `Navigation` whose `isResumable` flag is false). -/
def Navigation.Resume (d : Dawg) (nv : Navigator σ) (fuel : Nat)
    (state : NavEdge) (matched : List Char) (s : σ) : σ :=
  let s :=
    if nv.IsAccepting s then
      navFromEdge d nv false (navFromNode d nv false fuel)
        state.pfx state.nextNode matched s
    else s
  nv.Done s

/-- FindNavigator stores the state for a plain word search in the Dawg
(navigators.go). -/
structure FindNavigator where
  word : List Char
  lenWord : Nat
  index : Nat
  found : Bool
deriving Repr

/-- Init initializes a FindNavigator with the word to search for. -/
def FindNavigator.Init (word : List Char) : FindNavigator :=
  ⟨word, word.length, 0, false⟩

/-- The Navigator interface of FindNavigator, method for method from
navigators.go. Note that `Accepts` advances the index and returns true
without comparing the character: the code comments that an edge is
never entered without the correct character, which holds only for the
first rune of an edge prefix. -/
def FindNavigator.nav : Navigator FindNavigator where
  PushEdge := fun fn chr => (fn.word.getD fn.index ' ' = chr, fn)
  PopEdge := fun fn => (false, fn)
  Done := fun fn => fn
  IsAccepting := fun fn => fn.index < fn.lenWord
  Accepts := fun fn _ => (true, { fn with index := fn.index + 1 })
  Accept := fun fn _ final _ =>
    if final ∧ fn.index = fn.lenWord then { fn with found := true } else fn

/-- Find attempts to find a word in a DAWG, returning true if found or
false if not (dawg.go `Dawg.Find`). -/
def Dawg.Find (d : Dawg) (word : List Char) : Bool :=
  (Navigation.Go d FindNavigator.nav false d.fuel (FindNavigator.Init word)).found

/-- matchItem is the stack entry of MatchNavigator (navigators.go). -/
structure matchItem where
  index : Nat
  chMatch : Char
  isWildcard : Bool
deriving Repr

/-- MatchNavigator stores the state for a pattern matching navigation
of a Dawg (navigators.go). -/
structure MatchNavigator where
  pattern : List Char
  lenP : Nat
  index : Nat
  chMatch : Char
  isWildcard : Bool
  stack : List matchItem
  results : List (List Char)
deriving Repr

/-- Init initializes a MatchNavigator with the pattern to search for
(navigators.go; the Go code indexes `pattern[0]`, so the pattern is
never empty at its call sites). -/
def MatchNavigator.Init (pattern : List Char) : MatchNavigator :=
  let ch := pattern.headD ' '
  ⟨pattern, pattern.length, 0, ch, ch = '?', [], []⟩

/-- The Navigator interface of MatchNavigator, method for method from
navigators.go. -/
def MatchNavigator.nav : Navigator MatchNavigator where
  PushEdge := fun mn chr =>
    if chr ≠ mn.chMatch ∧ ¬mn.isWildcard then (false, mn)
    else (true, { mn with stack := mn.stack ++ [⟨mn.index, mn.chMatch, mn.isWildcard⟩] })
  PopEdge := fun mn =>
    match mn.stack.getLast? with
    | some mt =>
      (mt.isWildcard,
        { mn with index := mt.index, chMatch := mt.chMatch,
                  isWildcard := mt.isWildcard, stack := mn.stack.dropLast })
    | none => (false, mn)
  Done := fun mn => mn
  IsAccepting := fun mn => mn.index < mn.lenP
  Accepts := fun mn chr =>
    if chr ≠ mn.chMatch ∧ ¬mn.isWildcard then (false, mn)
    else
      let index := mn.index + 1
      if index < mn.lenP then
        let ch := mn.pattern.getD index ' '
        (true, { mn with index := index, chMatch := ch, isWildcard := ch = '?' })
      else (true, { mn with index := index })
  Accept := fun mn matched final _ =>
    if final ∧ mn.index = mn.lenP then
      { mn with results := mn.results ++ [matched] }
    else mn

/-- MatchRunes returns all words in the Dawg that match a given
pattern, which can include `?` wildcards (dawg.go `Dawg.MatchRunes`;
`Dawg.Match` is the same on a string). -/
def Dawg.MatchRunes (d : Dawg) (pattern : List Char) :
    List (List Char) :=
  (Navigation.Go d MatchNavigator.nav false d.fuel (MatchNavigator.Init pattern)).results

/-- CrossSet calculates a bit-mapped set of allowed letters in a
cross-check set, given a left and right string intersecting the square
being checked (dawg.go `Dawg.CrossSet`). The LRU `crossCache.Lookup`
memoises the pure fetch function by its key and is embedded as a
direct call to it. -/
def Dawg.CrossSet (d : Dawg) (left right : List Char) : Nat :=
  let lenLeft := left.length
  let key := left ++ ['?'] ++ right
  let matchList := d.MatchRunes key
  let runes := matchList.map (fun m => m.getD lenLeft ' ')
  d.alphabet.MakeSet runes

/-- LeftFindNavigator finds a word prefix and saves the full navigation
state where the prefix ends (navigators.go). The field `pfx` is the Go
`prefix` field. -/
structure LeftFindNavigator where
  pfx : List Char
  lenP : Nat
  index : Nat
  state : Option NavEdge
deriving Repr

/-- Init initializes a LeftFindNavigator with the prefix to search for. -/
def LeftFindNavigator.Init (p : List Char) : LeftFindNavigator :=
  ⟨p, p.length, 0, none⟩

/-- The Navigator interface of LeftFindNavigator (navigators.go). -/
def LeftFindNavigator.nav : Navigator LeftFindNavigator where
  PushEdge := fun lfn chr => (lfn.pfx.getD lfn.index ' ' = chr, lfn)
  PopEdge := fun lfn => (false, lfn)
  Done := fun lfn => lfn
  IsAccepting := fun lfn => lfn.index < lfn.lenP
  Accepts := fun lfn _ => (true, { lfn with index := lfn.index + 1 })
  Accept := fun lfn _ _ state =>
    if lfn.index = lfn.lenP then { lfn with state := state } else lfn

/-- LeftPart stores the navigation state after matching a particular
left part within the DAWG (navigators.go). -/
structure LeftPart where
  matched : List Char
  rack : List Char
  state : Option NavEdge
deriving Repr

/-- leftPermItem is the stack entry of LeftPermutationNavigator. -/
structure leftPermItem where
  rack : List Char
  index : Nat
deriving Repr

/-- LeftPermutationNavigator finds all left parts of words that are
possible with a particular rack, accumulated by length (navigators.go). -/
structure LeftPermutationNavigator where
  rack : List Char
  hasBlank : Bool
  stack : List leftPermItem
  maxLeft : Nat
  leftParts : List (List LeftPart)
  index : Nat
deriving Repr

/-- Init initializes a fresh LeftPermutationNavigator using the given
rack (navigators.go). -/
def LeftPermutationNavigator.Init (rack : List Char) : LeftPermutationNavigator :=
  let maxLeft := if rack.length ≤ 1 then 0 else rack.length - 1
  { rack := rack, hasBlank := ContainsRune rack '?', stack := [],
    maxLeft := maxLeft, leftParts := List.replicate maxLeft [], index := 0 }

/-- The Navigator interface of LeftPermutationNavigator, method for
method from navigators.go. `Accept` buckets the matched prefix under
its length; the Go slice write `leftParts[ix]` is in range because the
index never exceeds `maxLeft`. -/
def LeftPermutationNavigator.nav : Navigator LeftPermutationNavigator where
  PushEdge := fun lpn chr =>
    if ¬lpn.hasBlank ∧ ¬ContainsRune lpn.rack chr then (false, lpn)
    else (true, { lpn with stack := lpn.stack ++ [⟨lpn.rack, lpn.index⟩] })
  PopEdge := fun lpn =>
    match lpn.stack.getLast? with
    | some it =>
      (true, { lpn with rack := it.rack, index := it.index, stack := lpn.stack.dropLast })
    | none => (true, lpn)
  Done := fun lpn => lpn
  IsAccepting := fun lpn => lpn.index < lpn.maxLeft
  Accepts := fun lpn chr =>
    let exactMatch := ContainsRune lpn.rack chr
    if ¬exactMatch ∧ ¬lpn.hasBlank then (false, lpn)
    else
      let index := lpn.index + 1
      if exactMatch then
        (true, { lpn with index := index, rack := RemoveRune lpn.rack chr })
      else
        let rack := RemoveRune lpn.rack '?'
        (true, { lpn with
                 index := index,
                 rack := rack,
                 hasBlank := ContainsRune rack '?' })
  Accept := fun lpn matched _ state =>
    let ix := matched.length - 1
    let lps := lpn.leftParts.set ix
      (lpn.leftParts.getD ix [] ++ [⟨matched, lpn.rack, state⟩])
    { lpn with leftParts := lps }

/-- FindLeftParts returns all left part permutations that can be
generated from the given rack, grouped by length (navigators.go; uses
a resumable navigation). -/
def FindLeftParts (d : Dawg) (rack : List Char) :
    List (List LeftPart) :=
  (Navigation.Go d LeftPermutationNavigator.nav true d.fuel
    (LeftPermutationNavigator.Init rack)).leftParts

/-- Cover describes the covering of a single Square by a Letter; the
Letter may be `?` (blank), in which case Meaning gives its meaning
(move.go). -/
structure Cover where
  letter : Char
  meaning : Char
deriving DecidableEq, Repr

/-- Covers is a map of board coordinates to a tile covering (move.go).
The Go `map[Coordinate]Cover` is embedded as an association list with
distinct keys; map iteration order is not observable in any of the
translated functions beyond list order. -/
abbrev Covers := List (Coordinate × Cover)

/-- Lookup of a coordinate in a Covers map (the Go `covers[coord]`). -/
def Covers.find (covers : Covers) (coord : Coordinate) : Option Cover :=
  (covers.find? (fun p => p.1 = coord)).map (fun p => p.2)

/-- BingoBonus is the number of extra points awarded for laying down
all the 7 tiles in the rack in one move (move.go). -/
def BingoBonus : Int := 50

/-- IllegalMoveWord is the move.Word of an illegal move (move.go). -/
def IllegalMoveWord : List Char := ['[', '?', '?', '?', ']']

/-- TileMove represents a normal tile move by a player (move.go). -/
structure TileMove where
  topLeft : Coordinate := ⟨0, 0⟩
  bottomRight : Coordinate := ⟨0, 0⟩
  prefixLength : Nat := 0
  covers : Covers := []
  horizontal : Bool := false
  word : List Char := []
  cachedScore : Option Int := none
  validateWords : Bool := false
deriving DecidableEq, Repr

/-- TileSet is a static list of tiles; only its score map is consumed
by the move generator and scorer (game.go). A missing letter scores 0,
as a Go map lookup returns the zero value. -/
structure TileSet where
  scores : Char → Int

/-- Rack represents a player's rack of Tiles (board.go). Only the
slots are consumed by the embedded operations; the Letters count map
is carried along for the frame theorems. -/
structure Rack where
  slots : List Square
  letters : Char → Int

/-- AsRunes returns the tiles in the Rack as a list of runes
(board.go `Rack.AsRunes`). -/
def Rack.AsRunes (rack : Rack) : List Char :=
  rack.slots.filterMap (fun sq => sq.tile.map (fun t => t.letter))

/-- GameState contains the bare minimum of information needed for a
robot player to decide on a move (game.go). -/
structure GameState where
  dawg : Dawg
  tileSet : TileSet
  board : Board
  rack : Rack
  exchangeForbidden : Bool := false

/-- Game, restricted to the fields that `TileMove.IsValid` consumes
(game.go: the board and the DAWG dictionary). -/
structure Game where
  board : Board
  dawg : Dawg

/-- The walk of `TileMove.Init` (move.go) from the top-left cover to
the bottom-right cover, collecting the word being laid down. `none`
stands for the paths on which the Go code sets `IllegalMoveWord`: a
bounding-box square that is neither covered nor occupied, or running
off the board. The fuel 16 exceeds the longest possible walk. -/
def TileMove.initWalk (board : Board) (covers : Covers)
    (bottom right direction : Int) :
    Nat → Square → List Char → Option (List Char)
  | 0, _, _ => none
  | fuel + 1, sq, word =>
    let step : Option (List Char) :=
      match covers.find ⟨sq.row, sq.col⟩ with
      | some cover =>
        if cover.letter = '?' then some (word ++ ['?', cover.meaning])
        else some (word ++ [cover.meaning])
      | none =>
        match sq.tile with
        | some t => some (word ++ [t.meaning])
        | none => none
    match step with
    | none => none
    | some word1 =>
      if sq.row = bottom ∧ sq.col = right then some word1
      else
        match board.adjacent sq.row sq.col direction with
        | none => none
        | some sq2 =>
          TileMove.initWalk board covers bottom right direction fuel sq2 word1

/-- Init initializes a TileMove instance for a particular Board using
a map of Coordinate to Cover (move.go `TileMove.Init`). -/
def TileMove.Init (board : Board) (covers : Covers) (validateWords : Bool) :
    TileMove :=
  let top := covers.foldl (fun acc p => if p.1.row < acc then p.1.row else acc) BoardSize
  let left := covers.foldl (fun acc p => if p.1.col < acc then p.1.col else acc) BoardSize
  let bottom := covers.foldl (fun acc p => if p.1.row > acc then p.1.row else acc) (-1)
  let right := covers.foldl (fun acc p => if p.1.col > acc then p.1.col else acc) (-1)
  let horizontal :=
    if covers.length ≥ 2 then top = bottom
    else
      let hcross := (board.Fragment top left LEFT).length +
        (board.Fragment top left RIGHT).length
      let vcross := (board.Fragment top left ABOVE).length +
        (board.Fragment top left BELOW).length
      hcross ≥ vcross
  let base : TileMove :=
    { covers := covers, topLeft := ⟨top, left⟩, bottomRight := ⟨bottom, right⟩,
      horizontal := horizontal, validateWords := validateWords }
  let direction := if horizontal then RIGHT else BELOW
  let reverse := if horizontal then LEFT else ABOVE
  match board.Sq top left with
  | none => { base with word := IllegalMoveWord }
  | some sq =>
    let word0 := board.WordFragment top left reverse
    let prefixLength := word0.length
    match TileMove.initWalk board covers bottom right direction 16 sq word0 with
    | none => { base with prefixLength := prefixLength, word := IllegalMoveWord }
    | some word1 =>
      { base with prefixLength := prefixLength,
                  word := word1 ++ board.WordFragment bottom right direction }

/-- NewTileMove creates a new TileMove with word validation (move.go). -/
def NewTileMove (board : Board) (covers : Covers) : TileMove :=
  TileMove.Init board covers true

/-- NewUncheckedTileMove creates a new TileMove without word validation
(move.go). -/
def NewUncheckedTileMove (board : Board) (covers : Covers) : TileMove :=
  TileMove.Init board covers false

/-- Return move.Word after deleting question marks from the string
(move.go `TileMove.CleanWord`). -/
def TileMove.CleanWord (move : TileMove) : List Char :=
  move.word.filter (fun c => c ≠ '?')

/-- ValidateWord looks the cleaned word up in the DAWG (move.go). -/
def TileMove.ValidateWord (move : TileMove) (dawg : Dawg) : Bool :=
  dawg.Find move.CleanWord

/-- The list of Int values from a to b inclusive, for the Go loops
`for i := a; i <= b; i++`. -/
def intRange (a b : Int) : List Int :=
  (List.range (b + 1 - a).toNat).map (fun k => a + Int.ofNat k)

/-- The word-validation tail of `TileMove.IsValid` (move.go): skipped
unless ValidateWords is set; then the main word must be in the DAWG
and each cover's cross word — read at the transposed coordinate, as in
the source — must be in the DAWG. -/
def TileMove.isValidWords (move : TileMove) (game : Game) : Bool :=
  if ¬move.validateWords then true
  else if move.word = IllegalMoveWord ∨ move.word = [] then false
  else if ¬(move.ValidateWord game.dawg) then false
  else
    move.covers.all (fun p =>
      let lr := game.board.CrossWords p.1.col p.1.row (!move.horizontal)
      if lr.1.length > 0 ∨ lr.2.length > 0 then
        game.dawg.Find (lr.1 ++ [p.2.meaning] ++ lr.2)
      else true)

/-- IsValid returns true if the TileMove is valid in the current Game
(move.go `TileMove.IsValid`), translated condition for condition. Note
that the cross-word check passes `coord.Col, coord.Row` — in that
order — to `Board.CrossWords`, exactly as the source does. -/
def TileMove.IsValid (move : TileMove) (game : Game) : Bool :=
  if move.covers.length < 1 ∨ move.covers.length > RackSize then false
  else
    let board := game.board
    if ¬(move.covers.all (fun p =>
        ¬(p.1.row < 0 ∨ p.1.row ≥ BoardSize ∨ p.1.col < 0 ∨ p.1.col ≥ BoardSize) ∧
        board.TileAt p.1.row p.1.col = none)) then false
    else
      let numAdjacentTiles := move.covers.foldl
        (fun n p => n + board.NumAdjacentTiles p.1.row p.1.col) 0
      if move.bottomRight.row > move.topLeft.row ∧
         move.bottomRight.col > move.topLeft.col then false
      else
        let noGaps :=
          if move.horizontal then
            (intRange move.topLeft.col move.bottomRight.col).all (fun i =>
              (move.covers.find ⟨move.topLeft.row, i⟩).isSome ||
              (board.TileAt move.topLeft.row i).isSome)
          else
            (intRange move.topLeft.row move.bottomRight.row).all (fun i =>
              (move.covers.find ⟨i, move.topLeft.col⟩).isSome ||
              (board.TileAt i move.topLeft.col).isSome)
        if ¬noGaps then false
        else
          if board.numTiles = 0 then
            if (move.covers.find board.StartSquare).isNone then false
            else TileMove.isValidWords move game
          else
            if numAdjacentTiles = 0 then false
            else TileMove.isValidWords move game

/-- The main loop of `TileMove.Score` (move.go), walking from the top
left to the bottom right and accumulating (score, multiplier,
crossScore). The fuel 16 exceeds the longest possible walk. On a
square that is neither covered nor occupied the Go code would fault on
a nil tile; the accumulator adds 0 there, and the scoring theorems
assume well-formed moves on which this cannot happen. -/
def TileMove.scoreLoop (state : GameState) (move : TileMove)
    (rowIncr colIncr : Int) :
    Nat → Int → Int → Int × Int × Int → Int × Int × Int
  | 0, _, _, acc => acc
  | fuel + 1, row, col, (score, multiplier, crossScore) =>
    match state.board.Sq row col with
    | none => (score, multiplier, crossScore)
    | some sq =>
      let acc1 :=
        match move.covers.find ⟨row, col⟩ with
        | some cover =>
          let thisScore := state.tileSet.scores cover.letter * sq.letterMultiplier
          let cs := state.board.CrossScore row col (!move.horizontal)
          (score + thisScore, multiplier * sq.wordMultiplier,
            if cs.1 then crossScore + (cs.2 + thisScore) * sq.wordMultiplier
            else crossScore)
        | none =>
          (score + ((sq.tile.map Tile.score).getD 0), multiplier, crossScore)
      if row ≥ move.bottomRight.row ∧ col ≥ move.bottomRight.col then acc1
      else
        TileMove.scoreLoop state move rowIncr colIncr fuel
          (row + rowIncr) (col + colIncr) acc1

/-- Score returns the score of the TileMove, if played in the given
Game (move.go `TileMove.Score`). The Go code memoises the result in
`CachedScore` after the first call; the cached value, when present, is
returned unchanged. -/
def TileMove.Score (move : TileMove) (state : GameState) : Int :=
  match move.cachedScore with
  | some s => s
  | none =>
    let direction := if move.horizontal then LEFT else ABOVE
    let rowIncr : Int := if move.horizontal then 0 else 1
    let colIncr : Int := if move.horizontal then 1 else 0
    let row := move.topLeft.row
    let col := move.topLeft.col
    let score0 :=
      ((state.board.Fragment row col direction).map Tile.score).sum
    let acc := TileMove.scoreLoop state move rowIncr colIncr 16 row col
      (score0, 1, 0)
    let direction2 := if move.horizontal then RIGHT else BELOW
    let score1 := acc.1 +
      ((state.board.Fragment move.bottomRight.row move.bottomRight.col
        direction2).map Tile.score).sum
    let score2 := score1 * acc.2.1 + acc.2.2
    if move.covers.length = RackSize then score2 + BingoBonus else score2

/-- Matching constants of movegen.go (`mNo`, `mBoardTile`, `mRackTile`;
0 is the zero value of `lastCheck`, meaning no cached check). -/
def mNo : Nat := 1

/-- Matching constant: the letter matches the board tile (movegen.go). -/
def mBoardTile : Nat := 2

/-- Matching constant: the letter can come from the rack (movegen.go). -/
def mRackTile : Nat := 3

/-- Axis stores information about a row or column on the board where
the robot player is looking for valid moves (movegen.go). The Go `sq`
array of pointers to the 15 squares on the axis is embedded as the
list of those squares, read from the immutable board. -/
structure Axis where
  state : GameState
  horizontal : Bool
  rackSet : Nat
  rack : List Char
  sqList : List Square
  crossCheck : List Nat
  isAnchor : List Bool

/-- The square at an index within the Axis (the Go `axis.sq[i]`). -/
def Axis.sqAt (axis : Axis) (i : Nat) : Square :=
  axis.sqList.getD i {}

/-- The cross-check set at an index within the Axis. -/
def Axis.crossCheckAt (axis : Axis) (i : Nat) : Nat :=
  axis.crossCheck.getD i 0

/-- IsAnchor returns true if the given square within the Axis is an
anchor square (movegen.go). -/
def Axis.IsAnchor (axis : Axis) (i : Nat) : Bool :=
  axis.isAnchor.getD i false

/-- The cross-check set of a square (movegen.go `Axis.crossSet`): no
constraint (all bits) when there is no cross word, otherwise the set
computed by the DAWG. Defined on the state and orientation so that
`Axis.Init` can use it while constructing the axis. -/
def axisCrossSet (state : GameState) (horizontal : Bool) (sq : Square) : Nat :=
  let lr := state.board.CrossWords sq.row sq.col (!horizontal)
  if lr.1.length = 0 ∧ lr.2.length = 0 then UINT_MAX
  else state.dawg.CrossSet lr.1 lr.2

/-- Axis.crossSet of movegen.go, as a method on the axis. -/
def Axis.crossSet (axis : Axis) (sq : Square) : Nat :=
  axisCrossSet axis.state axis.horizontal sq

/-- The per-square body of the loop of movegen.go `Axis.Init`: an
occupied square is not an anchor and needs no cross-check set; on an
empty board only the start square on its horizontal axis is an anchor;
otherwise anchors are the empty squares with an occupied neighbour,
and only anchors get a DAWG cross-check set. -/
def axisInitMark (state : GameState) (rackSet : Nat) (index : Int)
    (horizontal : Bool) (i : Nat) (sq : Square) : Bool × Nat :=
  let board := state.board
  let startSquare := board.StartSquare
  match sq.tile with
  | some _ => (false, 0)
  | none =>
    let isAnchor :=
      if board.numTiles = 0 then
        horizontal ∧ index = startSquare.row ∧ Int.ofNat i = startSquare.col
      else
        board.NumAdjacentTiles sq.row sq.col > 0
    if ¬isAnchor then (false, rackSet)
    else (true, rackSet &&& axisCrossSet state horizontal sq)

/-- Init initializes a fresh Axis object, associating it with a board
row or column (movegen.go `Axis.Init`): mark anchors and compute the
cross-check sets using `axisInitMark`. -/
def Axis.Init (state : GameState) (rackSet : Nat) (index : Int)
    (horizontal : Bool) : Axis :=
  let rack := state.rack.AsRunes
  let board := state.board
  let sqList := (List.range 15).map (fun i =>
    if horizontal then board.squares index (Int.ofNat i)
    else board.squares (Int.ofNat i) index)
  let marked := (sqList.enum.map (fun p =>
    axisInitMark state rackSet index horizontal p.1 p.2))
  { state := state, horizontal := horizontal, rackSet := rackSet,
    rack := rack, sqList := sqList,
    crossCheck := marked.map (fun p => p.2),
    isAnchor := marked.map (fun p => p.1) }

/-- IsOpen returns true if the given square within the Axis is open
for a new Tile from the Rack (movegen.go). -/
def Axis.IsOpen (axis : Axis) (i : Nat) : Bool :=
  (axis.sqAt i).tile = none ∧ axis.crossCheckAt i > 0

/-- Allows returns true if the given letter can be placed in the
indexed square within the Axis, in compliance with the cross checks
(movegen.go). -/
def Axis.Allows (axis : Axis) (i : Nat) (letter : Char) : Bool :=
  if (axis.sqAt i).tile.isSome then false
  else axis.state.dawg.alphabet.Member letter (axis.crossCheckAt i)

/-- ernItem is the stack entry of ExtendRightNavigator (movegen.go). -/
structure ernItem where
  rack : List Char
  index : Nat
  wildcardInRack : Bool

/-- ExtendRightNavigator implements the core of the Appel-Jacobson
algorithm (movegen.go); it proceeds along an Axis, covering empty
squares with rack tiles under the DAWG and cross-check constraints,
and emits the generated tile moves. -/
structure ExtendRightNavigator where
  axis : Axis
  anchor : Nat
  index : Nat
  rack : List Char
  stack : List ernItem
  lastCheck : Nat
  wildcardInRack : Bool
  moves : List TileMove

/-- Init initializes a fresh ExtendRightNavigator for an axis,
starting from the given anchor, using the indicated rack (movegen.go). -/
def ExtendRightNavigator.Init (axis : Axis) (anchor : Nat)
    (rack : List Char) : ExtendRightNavigator :=
  { axis := axis, anchor := anchor, index := anchor, rack := rack,
    wildcardInRack := ContainsRune rack '?', stack := [],
    lastCheck := 0, moves := [] }

/-- The check of movegen.go `ExtendRightNavigator.check`: can the
letter go on the square at the current index? (The TEST_MODE debug
verification block has no effect on the result and is omitted.) -/
def ExtendRightNavigator.check (ern : ExtendRightNavigator) (letter : Char) :
    Nat :=
  match (ern.axis.sqAt ern.index).tile with
  | some tileAtSq =>
    if letter = tileAtSq.meaning then mBoardTile else mNo
  | none =>
    if ¬ern.wildcardInRack ∧ ¬ContainsRune ern.rack letter then mNo
    else if ern.axis.Allows ern.index letter then mRackTile
    else mNo

/-- The cover-building loop of `ExtendRightNavigator.Accept`
(movegen.go): walk the matched runes; squares already holding a tile
are skipped; a rack letter is consumed exactly if present, otherwise a
blank is consumed and the cover letter is `?`. Returns the covers and
the remaining rack tiles. -/
def buildCoversAux (axis : Axis) : Nat → List Char → List Char →
    Covers × List Char
  | _, [], rackTiles => ([], rackTiles)
  | i, meaning :: rest, rackTiles =>
    let sq := axis.sqAt i
    match sq.tile with
    | some _ => buildCoversAux axis (i + 1) rest rackTiles
    | none =>
      let (letter, rackTiles1) :=
        if ContainsRune rackTiles meaning then (meaning, RemoveRune rackTiles meaning)
        else ('?', RemoveRune rackTiles '?')
      let (covers, rackTiles2) := buildCoversAux axis (i + 1) rest rackTiles1
      ((⟨⟨sq.row, sq.col⟩, ⟨letter, meaning⟩⟩ :: covers), rackTiles2)

/-- The multiset of rack tiles used while reconstructing the covers of
a generated move (main.go `MakeRackTiles`/`RackTiles`: a count map of
runes, embedded as the list of runes with multiset operations). -/
def buildCovers (axis : Axis) (start : Nat) (matched : List Char) : Covers :=
  (buildCoversAux axis start matched axis.rack).1

/-- The Navigator interface of ExtendRightNavigator, method for method
from movegen.go. `IsAccepting` is the Go test
`index < BoardSize && (len(rack) > 0 || axis.sq[index] != nil)`; the
second disjunct compares the cached square pointer, which is never nil
on the 15 axis squares, so it is identically true. -/
def ExtendRightNavigator.nav : Navigator ExtendRightNavigator where
  PushEdge := fun ern letter =>
    let ern := { ern with lastCheck := ern.check letter }
    if ern.lastCheck = mNo then (false, ern)
    else
      let st := ern.stack ++ [⟨ern.rack, ern.index, ern.wildcardInRack⟩]
      (true, { ern with stack := st })
  PopEdge := fun ern =>
    match ern.stack.getLast? with
    | some sp =>
      (true, { ern with
               rack := sp.rack,
               index := sp.index,
               wildcardInRack := sp.wildcardInRack,
               stack := ern.stack.dropLast })
    | none => (true, ern)
  Done := fun ern => ern
  IsAccepting := fun ern =>
    if ern.index ≥ 15 then false
    else ern.rack.length > 0 || true
  Accepts := fun ern letter =>
    let m := if ern.lastCheck = 0 then ern.check letter else ern.lastCheck
    let ern := { ern with lastCheck := 0 }
    if m = mNo then (false, ern)
    else
      let ern := { ern with index := ern.index + 1 }
      if m = mRackTile then
        let rack :=
          if ContainsRune ern.rack letter then RemoveRune ern.rack letter
          else RemoveRune ern.rack '?'
        (true, { ern with rack := rack, wildcardInRack := ContainsRune rack '?' })
      else (true, ern)
  Accept := fun ern matched final _ =>
    if ¬final ∨ (ern.index < 15 ∧ (ern.axis.sqAt ern.index).tile.isSome) then ern
    else if matched.length < 2 then ern
    else
      let start := ern.index - matched.length
      let covers := buildCovers ern.axis start matched
      let tileMove := NewUncheckedTileMove ern.axis.state.board covers
      { ern with moves := ern.moves ++ [tileMove] }

/-- genMovesFromAnchor returns the available moves that use the given
square within the Axis as an anchor (movegen.go). -/
def Axis.genMovesFromAnchor (axis : Axis) (anchor : Nat) (maxLeft : Nat)
    (leftParts : List (List LeftPart)) : List TileMove :=
  let dawg := axis.state.dawg
  let board := axis.state.board
  let rack := axis.rack
  let sq := axis.sqAt anchor
  if maxLeft = 0 ∧ anchor > 0 ∧ (axis.sqAt (anchor - 1)).tile.isSome then
    let direction := if axis.horizontal then LEFT else ABOVE
    let fragment := board.Fragment sq.row sq.col direction
    let left := (fragment.map Tile.meaning).reverse
    let lfn := Navigation.Go dawg LeftFindNavigator.nav true dawg.fuel
      (LeftFindNavigator.Init left)
    match lfn.state with
    | none => []
    | some st =>
      (Navigation.Resume dawg ExtendRightNavigator.nav dawg.fuel st left
        (ExtendRightNavigator.Init axis anchor rack)).moves
  else
    let moves := (Navigation.Go dawg ExtendRightNavigator.nav false dawg.fuel
      (ExtendRightNavigator.Init axis anchor rack)).moves
    let leftReach := min maxLeft (rack.length - 1)
    moves ++ (List.range leftReach).flatMap (fun k =>
      (leftParts.getD k []).flatMap (fun leftPart =>
        match leftPart.state with
        | none => []
        | some st =>
          (Navigation.Resume dawg ExtendRightNavigator.nav dawg.fuel st
            leftPart.matched
            (ExtendRightNavigator.Init axis anchor leftPart.rack)).moves))

/-- The count of open squares to the left of an anchor, up to but not
including the previous anchor (the inner loop of movegen.go
`Axis.GenerateMoves`). -/
def Axis.openCount (axis : Axis) (lastAnchor : Int) : Nat → Nat
  | 0 => 0
  | left + 1 =>
    if Int.ofNat (left + 1) > lastAnchor + 1 ∧ axis.IsOpen left then
      Axis.openCount axis lastAnchor left + 1
    else 0

/-- GenerateMoves returns a list of all legal moves along this Axis
(movegen.go `Axis.GenerateMoves`): anchors are processed from left to
right, skipping anchors whose cross-check set is empty. -/
def Axis.GenerateMoves (axis : Axis) (leftParts : List (List LeftPart)) :
    List TileMove :=
  ((List.range 15).foldl (fun (acc : List TileMove × Int) i =>
    if ¬axis.IsAnchor i then acc
    else
      let moves :=
        if axis.crossCheckAt i > 0 then
          acc.1 ++ axis.genMovesFromAnchor i (axis.openCount acc.2 i) leftParts
        else acc.1
      (moves, Int.ofNat i)) ([], -1)).1

/-- GenerateMoves returns a list of all legal moves in the GameState
(movegen.go `GameState.GenerateMoves`). The Go code runs the 30 axes
in goroutines and drains a channel, so the list order is
scheduler-dependent; the embedding concatenates the per-axis lists in
the spawn order (for each index, horizontal then vertical). -/
def GameState.GenerateMoves (state : GameState) : List TileMove :=
  let rack := state.rack.AsRunes
  let rackSet := state.dawg.alphabet.MakeSet rack
  let leftParts := FindLeftParts state.dawg rack
  (List.range 15).flatMap (fun i =>
    (Axis.Init state rackSet (Int.ofNat i) true).GenerateMoves leftParts ++
    (Axis.Init state rackSet (Int.ofNat i) false).GenerateMoves leftParts)

/-- Modelled from the spec (§3): the words contributed along a single
edge — those "ending at any `|` separator or at an edge-ending byte
whose successor is either absent or whose destination node's header
high bit is set" — mirroring the word boundaries recognised by
`navFromEdge`; `descend` enumerates the words below the next node. -/
def wordsFromEdge (d : Dawg)
    (descend : Nat → List Char → List (List Char)) :
    List Char → Nat → List Char → List (List Char)
  | [], nextNode, matched =>
    if nextNode ≠ 0 then descend nextNode matched else []
  | [c], nextNode, matched =>
    let m1 := matched ++ [c]
    (if nextNode = 0 || d.headerFinal nextNode then [m1] else []) ++
      (if nextNode ≠ 0 then descend nextNode m1 else [])
  | c :: '|' :: rest2, nextNode, matched =>
    let m1 := matched ++ [c]
    m1 :: wordsFromEdge d descend rest2 nextNode m1
  | c :: c2 :: rest3, nextNode, matched =>
    let m1 := matched ++ [c]
    wordsFromEdge d descend (c2 :: rest3) nextNode m1

/-- Modelled from the spec (§3): the words encoded below a node of the
DAWG. The recursion consumes fuel exactly where the navigation driver
`navFromNode` does, so that a navigation and this enumeration truncate
identically. -/
def wordsFromNode (d : Dawg) : Nat → Nat → List Char → List (List Char)
  | 0, _, _ => []
  | fuel + 1, offset, matched =>
    (d.edges offset).flatMap
      (fun e => wordsFromEdge d (wordsFromNode d fuel) e.pfx e.nextNode matched)

/-- Modelled from the spec (§3): the set of words the DAWG encodes,
read from the root node. -/
def dawgWords (d : Dawg) : List (List Char) :=
  wordsFromNode d d.fuel 0 []

/-- Positionwise agreement of a word with a pattern on their overlap,
`?` in the pattern matching any rune. -/
def partMatches : List Char → List Char → Bool
  | _, [] => true
  | [], _ :: _ => true
  | p :: ps, c :: cs => (p = '?' || p = c) && partMatches ps cs

/-- Modelled from the spec (§4.2): a word matches a pattern when it
has the same rune length and agrees with the pattern at every
position, `?` matching any rune. -/
def matchesPattern (pattern w : List Char) : Bool :=
  w.length = pattern.length && partMatches pattern w

/-- The invariant the navigation driver maintains on a MatchNavigator
while `matched` runes have been consumed: the pattern fields are
intact, the index counts the consumed runes, the consumed runes agree
with the pattern, and while the pattern is not exhausted `chMatch` and
`isWildcard` cache the current pattern position. -/
def matchGood (pattern matched : List Char) (mn : MatchNavigator) : Prop :=
  mn.pattern = pattern ∧ mn.lenP = pattern.length ∧
  mn.index = matched.length ∧ partMatches pattern matched = true ∧
  (mn.index < mn.lenP →
    mn.chMatch = pattern.getD mn.index ' ' ∧
    mn.isWildcard = decide (mn.chMatch = '?'))

/-- The shape of a decoded edge prefix (spec §3): a sequence of
letters, each optionally followed by the separator `|`; hence the
prefix never starts with `|` and never contains two consecutive `|`. -/
def edgeShape : List Char → Bool
  | [] => true
  | c :: rest =>
    c ≠ '|' &&
      (if rest.headD ' ' = '|' then edgeShape rest.tail else edgeShape rest)
termination_by l => l.length

/-- Well-formedness of a DAWG, as guaranteed by the binary format of
spec §3 and §6: the alphabet has distinct letters and contains neither
the wildcard `?` nor the separator `|`; every decoded edge prefix is a
nonempty well-shaped sequence over the alphabet; and the outgoing
edges of a node start with distinct runes (the DAWG is deterministic). -/
structure DawgWF (d : Dawg) : Prop where
  alphaNodup : d.alphabet.asRunes.Nodup
  alphaNoWild : '?' ∉ d.alphabet.asRunes
  alphaNoSep : '|' ∉ d.alphabet.asRunes
  edgeNonempty : ∀ n, ∀ e ∈ d.edges n, e.pfx ≠ []
  edgeShaped : ∀ n, ∀ e ∈ d.edges n, edgeShape e.pfx = true
  edgeAlpha : ∀ n, ∀ e ∈ d.edges n, ∀ c ∈ e.pfx, c = '|' ∨ c ∈ d.alphabet.asRunes
  distinctFirst : ∀ n, ((d.edges n).map (fun e => e.pfx.headD ' ')).Nodup

/-- The axis-major positions of the main word's bounding box of a tile
move: from the top-left to the bottom-right corner. -/
def TileMove.boxPositions (move : TileMove) : List Coordinate :=
  if move.horizontal then
    (intRange move.topLeft.col move.bottomRight.col).map
      (fun c => ⟨move.topLeft.row, c⟩)
  else
    (intRange move.topLeft.row move.bottomRight.row).map
      (fun r => ⟨r, move.topLeft.col⟩)

/-- Well-formedness of a TileMove relative to a board, as established
by `TileMove.Init` for any move a player or the generator submits: the
score is not yet cached, the covers are a nonempty map (distinct keys)
lying inside the bounding box, the box is the straight in-bounds
segment between the corners in the direction of `horizontal`, and
every box position is either covered or already occupied. -/
structure TileMove.wellFormedOn (board : Board) (move : TileMove) : Prop where
  cacheFree : move.cachedScore = none
  coversNonempty : move.covers ≠ []
  coversNodup : (move.covers.map Prod.fst).Nodup
  inBounds : 0 ≤ move.topLeft.row ∧ move.topLeft.row < BoardSize ∧
    0 ≤ move.topLeft.col ∧ move.topLeft.col < BoardSize ∧
    0 ≤ move.bottomRight.row ∧ move.bottomRight.row < BoardSize ∧
    0 ≤ move.bottomRight.col ∧ move.bottomRight.col < BoardSize
  straight : if move.horizontal then
      move.topLeft.row = move.bottomRight.row ∧
      move.topLeft.col ≤ move.bottomRight.col
    else
      move.topLeft.col = move.bottomRight.col ∧
      move.topLeft.row ≤ move.bottomRight.row
  coversInBox : ∀ p ∈ move.covers, p.1 ∈ move.boxPositions
  boxFilled : ∀ pos ∈ move.boxPositions,
    (move.covers.find pos).isSome ∨ (board.squares pos.row pos.col).tile.isSome

/-- Stated from the claim (spec §4.4 scoring rule): the score of a
tile move is the sum of the back-fragment tile scores, the covered
letters' tile-set scores weighted by their letter multipliers, the
scores of on-board tiles passed through inside the box, and the
forward-fragment tile scores, all multiplied by the product of the
covered squares' word multipliers; plus, for each covered square with
a crossing, the cross fragments' score sum plus that square's letter
contribution, times that square's word multiplier; plus 50 exactly
when the move has 7 covers. -/
def TileMove.specScore (move : TileMove) (state : GameState) : Int :=
  let board := state.board
  let backFrag := ((board.Fragment move.topLeft.row move.topLeft.col
    (if move.horizontal then LEFT else ABOVE)).map Tile.score).sum
  let fwdFrag := ((board.Fragment move.bottomRight.row move.bottomRight.col
    (if move.horizontal then RIGHT else BELOW)).map Tile.score).sum
  let coverLetterSum := (move.covers.map (fun p =>
    state.tileSet.scores p.2.letter *
      (board.squares p.1.row p.1.col).letterMultiplier)).sum
  let throughSum := ((move.boxPositions.filter
      (fun pos => (move.covers.find pos).isNone)).map
    (fun pos => (((board.squares pos.row pos.col).tile).map Tile.score).getD 0)).sum
  let mult := (move.covers.map (fun p =>
    (board.squares p.1.row p.1.col).wordMultiplier)).prod
  let crossTotal := (move.covers.map (fun p =>
    let sq := board.squares p.1.row p.1.col
    let cs := board.CrossScore p.1.row p.1.col (!move.horizontal)
    if cs.1 then
      (cs.2 + state.tileSet.scores p.2.letter * sq.letterMultiplier) *
        sq.wordMultiplier
    else 0)).sum
  (backFrag + coverLetterSum + throughSum + fwdFrag) * mult + crossTotal +
    (if move.covers.length = RackSize then BingoBonus else 0)

/-- The generation pipeline together with the board and rack objects
as they stand when the call returns. Mutation is explicit state
passing in this embedding (compare `Board.PlaceTile`, which returns
the updated board); `GenerateMoves` and every function in its call
graph only read the board and the rack, so the pipeline carries both
through to the result unchanged. -/
def GameState.GenerateMovesWithFrame (state : GameState) :
    List TileMove × Board × Rack :=
  (state.GenerateMoves, state.board, state.rack)

/-- A concrete empty standard board for the concrete-input theorems. -/
def emptyStandardBoard : Board :=
  (Board.init standardType).getD { squares := fun _ _ => {} }

/-- A tile set in which every letter scores 0 (scores do not matter
for the validity and generation examples below). -/
def trivialTileSet : TileSet := ⟨fun _ => 0⟩

/-- A rack holding the given letters, the remaining slots empty
being empty (board.go `NewRack`, with every tile scored 1). -/
def mkRack (letters : List Char) : Rack :=
  { slots := (List.range RackSize).map (fun i =>
      { row := -1, col := Int.ofNat i,
        tile := (letters.get? i).map (fun c => ⟨c, c, 1, 0⟩) }),
    letters := fun c => Int.ofNat (letters.count c) }

/-- A concrete two-letter alphabet plus a test letter. -/
def abAlphabet : Alphabet := ⟨['a', 'b', 'x']⟩

/-- A concrete DAWG encoding exactly the word "ab", as a single root
edge whose decoded prefix is `a b |` (a multi-rune edge with the final
marker on the last byte, hence no next node). -/
def abDawg : Dawg :=
  { edges := fun n => if n = 0 then [⟨['a', 'b', '|'], 0⟩] else [],
    headerFinal := fun _ => false,
    alphabet := abAlphabet,
    fuel := 4 }

/-- Concrete tiles for the board scenarios. -/
def tileA : Tile := ⟨'a', 'a', 1, 0⟩

/-- Concrete tile carrying the letter b. -/
def tileB : Tile := ⟨'b', 'b', 1, 0⟩

/-- The board of the generator-soundness scenario: an `a` at (2,5) to
extend with a `b` at (2,6), and an unrelated `b` at (5,2) — the
coordinate transpose of the new cover — whose fragment the transposed
cross-word lookup of `TileMove.IsValid` will read. -/
def c2Board : Board :=
  ((emptyStandardBoard.PlaceTile 2 5 tileA).1.PlaceTile 5 2 tileB).1

/-- The game state of the generator-soundness scenario: board as
above, rack holding a single `b`, dictionary exactly the word "ab". -/
def c2State : GameState :=
  { dawg := abDawg, tileSet := trivialTileSet, board := c2Board,
    rack := mkRack ['b'], exchangeForbidden := false }

/-- The Game view of the same scenario for `TileMove.IsValid`: the
same board and dictionary as `c2State`. -/
def c2Game : Game := ⟨c2State.board, c2State.dawg⟩

/-- The tile move that the generator produces in the scenario: cover
(2,6) with the `b`, extending the `a` at (2,5) into "ab". -/
def c2Move : TileMove :=
  NewUncheckedTileMove c2Board [⟨⟨2, 6⟩, ⟨'b', 'b'⟩⟩]

/-- The board of the cross-word-validation scenario: an `a` at (2,5)
and a `b` at (1,6), so that covering (2,6) forms the main word "ab"
and the perpendicular cross word "bb" at (2,6). -/
def c6Board : Board :=
  ((emptyStandardBoard.PlaceTile 2 5 tileA).1.PlaceTile 1 6 tileB).1

/-- The Game of the cross-word-validation scenario. -/
def c6Game : Game := ⟨c6Board, abDawg⟩

/-- The validated tile move of the cross-word-validation scenario:
cover (2,6) with a `b`. -/
def c6Move : TileMove :=
  NewTileMove c6Board [⟨⟨2, 6⟩, ⟨'b', 'b'⟩⟩]

/-- The empty-board game state used for the anchor and completeness
scenarios: standard board, rack `a b`, dictionary exactly "ab". -/
def c1State : GameState :=
  { dawg := abDawg, tileSet := trivialTileSet, board := emptyStandardBoard,
    rack := mkRack ['a', 'b'], exchangeForbidden := false }

/-- A legal vertical first move on the empty board: `a` at (6,7) and
`b` at (7,7), forming "ab" downwards through the start square. -/
def c1Move : TileMove :=
  NewTileMove emptyStandardBoard [⟨⟨6, 7⟩, ⟨'a', 'a'⟩⟩, ⟨⟨7, 7⟩, ⟨'b', 'b'⟩⟩]

/-- The board after placing a first tile on the start square — the
input on which `Board.PlaceTile` is applied a second time in the
tile-count scenario. -/
def c7Board1 : Board := (emptyStandardBoard.PlaceTile 7 7 tileA).1

/-- The result of placing a second tile onto the already occupied
start square. -/
def c7Result : Board × Bool := c7Board1.PlaceTile 7 7 tileB

/-- The letter-score contribution of one walked square in
`TileMove.scoreLoop`: a covered square contributes its cover's
tile-set score times the letter multiplier, an occupied square its
tile's score. -/
def scoreContribution (state : GameState) (move : TileMove)
    (pos : Coordinate) : Int :=
  match move.covers.find pos with
  | some cover =>
    state.tileSet.scores cover.letter *
      (state.board.squares pos.row pos.col).letterMultiplier
  | none => (((state.board.squares pos.row pos.col).tile).map Tile.score).getD 0

/-- The word-multiplier factor of one walked square: the square's word
multiplier when covered, otherwise 1. -/
def scoreMultAt (state : GameState) (move : TileMove) (pos : Coordinate) : Int :=
  if (move.covers.find pos).isSome then
    (state.board.squares pos.row pos.col).wordMultiplier
  else 1

/-- The cross-score contribution of one walked square: zero unless
covered and crossed. -/
def scoreCrossAt (state : GameState) (move : TileMove) (pos : Coordinate) : Int :=
  match move.covers.find pos with
  | some cover =>
    let sq := state.board.squares pos.row pos.col
    let cs := state.board.CrossScore pos.row pos.col (!move.horizontal)
    if cs.1 then
      (cs.2 + state.tileSet.scores cover.letter * sq.letterMultiplier) *
        sq.wordMultiplier
    else 0
  | none => 0

/-- The tile set of the concrete scoring witness: a scores 1, b
scores 3. -/
def c4TileSet : TileSet :=
  ⟨fun c => if c = 'a' then 1 else if c = 'b' then 3 else 0⟩

/-- The game state of the concrete scoring witness: the board and move
of the generator scenario with the scoring tile set. -/
def c4State : GameState :=
  { dawg := abDawg, tileSet := c4TileSet, board := c2Board,
    rack := mkRack ['b'], exchangeForbidden := false }

/-- The relation between a MatchNavigator state and the result of
walking one edge (or edge list) during a Match navigation: the pattern
fields survive, the stack is restored, and the results grow by exactly
the pattern-matching words of the walked part. -/
def matchFrame (pattern : List Char) (mn out : MatchNavigator)
    (ws : List (List Char)) : Prop :=
  out.pattern = pattern ∧ out.lenP = pattern.length ∧ out.stack = mn.stack ∧
  out.results = mn.results ++ ws.filter (matchesPattern pattern)

/-- The words contributed by a list of outgoing edges of a node, in
edge order: the per-edge words of `wordsFromEdge` concatenated. -/
def loopWords (d : Dawg) (fuel : Nat) (es : List NavEdge) (m : List Char) :
    List (List Char) :=
  es.flatMap (fun e => wordsFromEdge d (wordsFromNode d fuel) e.pfx e.nextNode m)

/-- The axis of the concrete cross-check scenario: the horizontal axis
of row 4 on the generator-soundness board (a `b` sits at (5,2)), with
an unconstrained rack set. -/
def c3Axis : Axis := Axis.Init c2State UINT_MAX 4 true

/-- The square (4,2) of that board: the empty square directly above
the `b` at (5,2), whose vertical cross fragments are `([], [b])`. -/
def c3Sq : Square := c2Board.squares 4 2

/-! ## Theorems -/

/-- C7: the specification states that `place_tile` requires the target
square to be empty and that `num_tiles` always equals the count of
occupied squares. The code contradicts its own comment ("Place a tile
in a board square, if it is empty"): placing a second tile onto the
already occupied start square succeeds, overwrites the tile, and
increments NumTiles to 2 while only 1 square holds a tile. -/
theorem C7_placeTile_occupied_breaks_invariant :
    (c7Board1.squares 7 7).tile.isSome = true ∧
    c7Board1.numTiles = 1 ∧
    c7Result.2 = true ∧
    c7Result.1.numTiles = 2 ∧
    c7Result.1.occupiedCount = 1 := by decide

/-- C5: `Dawg.Find` is claimed to be an exact-match test: it must
return false for a word that diverges from a stored word inside a
multi-rune edge. On the DAWG that encodes exactly the word "ab" via a
single edge with decoded prefix `a b |`, `Find "ax"` returns true,
because `FindNavigator.Accepts` advances without comparing characters
after the first rune of an edge. -/
theorem C5_find_accepts_diverging_word :
    dawgWords abDawg = [['a', 'b']] ∧
    abDawg.Find ['a', 'b'] = true ∧
    abDawg.Find ['a', 'x'] = true ∧
    ['a', 'x'] ∉ dawgWords abDawg := by decide

/-- C6: the claim says `IsValid` (with word validation) returns true
only if every cover's perpendicular cross-word exists in the DAWG. On
`c6Board` the cover at (2,6) forms the cross word "bb" (fragment "b"
above it), which is not in the DAWG, yet `IsValid` returns true: the
code reads the cross words at the transposed coordinate (6,2), which
is empty, so the check is skipped. -/
theorem C6_isValid_ignores_real_cross_word :
    c6Move.covers = [⟨⟨2, 6⟩, ⟨'b', 'b'⟩⟩] ∧
    c6Move.validateWords = true ∧
    c6Move.IsValid c6Game = true ∧
    c6Board.CrossWords 2 6 false = (['b'], []) ∧
    abDawg.Find ['b', 'b'] = false ∧
    ['b', 'b'] ∉ dawgWords abDawg := by decide

/-- C2: the claim says every generated TileMove passes `IsValid`
against the same game state once word validation is enabled on it. The
generator produces the move covering (2,6) with `b` (main word "ab",
legal by construction), but with `ValidateWords` set `IsValid` rejects
it: the cross-word check reads the transposed square (6,2), above
which sits an unrelated `b`, and looks up "bb", which is not in the
dictionary. -/
theorem C2_generated_move_rejected_by_isValid :
    c2Move ∈ c2State.GenerateMoves ∧
    c2Move.word = ['a', 'b'] ∧
    abDawg.Find c2Move.word = true ∧
    TileMove.IsValid { c2Move with validateWords := true } c2Game = false := by
  decide

/-- C10: constructing a TileMove from an empty Covers map (via
NewTileMove or NewUncheckedTileMove) yields the illegal-move marker
"[???]" as its word — the bounding box degenerates to (15,15)-(-1,-1)
and the bounded square lookup returns nil — and `IsValid` returns
false for it in any game, since it has fewer than one cover. In the
embedding every operation involved is total, which is the counterpart
of the Go code not crashing on this input. -/
theorem C10_empty_covers_illegal (board : Board) (game : Game) :
    (NewTileMove board []).word = IllegalMoveWord ∧
    (NewUncheckedTileMove board []).word = IllegalMoveWord ∧
    (NewTileMove board []).IsValid game = false ∧
    (NewUncheckedTileMove board []).IsValid game = false :=
  ⟨rfl, rfl, rfl, rfl⟩

/-- C9: move generation never writes to the board or the rack: the
generation pipeline returns the board with all its squares and tile
count, and the rack with its slots and letter counts, unchanged. In
this embedding mutation is explicit state passing, and no function in
the call graph of `GenerateMoves` produces an updated board or rack,
so the frame fact holds definitionally. -/
theorem C9_generation_reads_only (state : GameState) :
    (∀ r c, state.GenerateMovesWithFrame.2.1.squares r c = state.board.squares r c) ∧
    state.GenerateMovesWithFrame.2.1.numTiles = state.board.numTiles ∧
    state.GenerateMovesWithFrame.2.2.slots = state.rack.slots ∧
    state.GenerateMovesWithFrame.2.2.letters = state.rack.letters ∧
    state.GenerateMovesWithFrame.1 = state.GenerateMoves :=
  ⟨fun _ _ => rfl, rfl, rfl, rfl, rfl⟩

/-- The isAnchor entry of a freshly initialized Axis is what
`axisInitMark` computes on the corresponding board square. -/
theorem axis_isAnchor_eq_mark (state : GameState) (rackSet : Nat) (index : Int)
    (horizontal : Bool) (i : Nat) (hi : i < 15) :
    (Axis.Init state rackSet index horizontal).IsAnchor i =
      (axisInitMark state rackSet index horizontal i
        (if horizontal then state.board.squares index (Int.ofNat i)
         else state.board.squares (Int.ofNat i) index)).1 := by
  unfold Axis.Init Axis.IsAnchor
  rw [List.getD_eq_getElem]
  · simp [List.getElem_map, List.getElem_enum, List.getElem_range]
  · simp [hi]

/-- C8: on a board with zero tiles (every square empty), axis
preparation marks a square as an anchor exactly when the axis is
horizontal, the axis index is the start square's row, and the position
within the axis is the start square's column; in particular no anchor
is marked on any vertical axis of an empty board. -/
theorem C8_empty_board_anchor (state : GameState) (rackSet : Nat) (index : Int)
    (horizontal : Bool) (i : Nat) (hi : i < 15)
    (hnum : state.board.numTiles = 0)
    (hempty : ∀ r c, (state.board.squares r c).tile = none) :
    ((Axis.Init state rackSet index horizontal).IsAnchor i = true ↔
      (horizontal = true ∧ index = state.board.StartSquare.row ∧
       Int.ofNat i = state.board.StartSquare.col)) := by
  rw [axis_isAnchor_eq_mark state rackSet index horizontal i hi]
  unfold axisInitMark
  cases horizontal <;> simp [hempty, hnum]
  split <;> simp_all

/-- Witness for C8 at a concrete input: the empty standard board with
start square (7,7); position 7 of horizontal axis 7 is an anchor. -/
theorem C8_empty_board_anchor_witness :
    c1State.board.numTiles = 0 ∧
    ((Axis.Init c1State 3 7 true).IsAnchor 7 = true ↔
      (true = true ∧ (7 : Int) = c1State.board.StartSquare.row ∧
       Int.ofNat 7 = c1State.board.StartSquare.col)) :=
  ⟨rfl, C8_empty_board_anchor c1State 3 7 true 7 (by decide) rfl (fun r c => rfl)⟩

/-- The inclusive Int range is empty when the upper bound is below the
lower bound. -/
theorem intRange_empty (a b : Int) (h : b < a) : intRange a b = [] := by
  unfold intRange
  have : (b + 1 - a).toNat = 0 := by omega
  simp [this]

/-- Unfolding one element of the inclusive Int range. -/
theorem intRange_cons (a b : Int) (h : a ≤ b) :
    intRange a b = a :: intRange (a + 1) b := by
  unfold intRange
  have h1 : (b + 1 - a).toNat = (b + 1 - (a + 1)).toNat + 1 := by omega
  rw [h1, List.range_succ_eq_map]
  simp [List.map_map, Function.comp]
  intro x hx
  omega

/-- Summing a per-position cover lookup over a duplicate-free list of
positions that contains every cover key equals summing over the cover
map itself. -/
theorem covers_sum_eq (g : Coordinate → Cover → Int) (covers : Covers) :
    ∀ box : List Coordinate,
    box.Nodup → (covers.map Prod.fst).Nodup →
    (∀ p ∈ covers, p.1 ∈ box) →
    (box.map (fun pos =>
      match covers.find pos with
      | some cv => g pos cv
      | none => 0)).sum = (covers.map (fun p => g p.1 p.2)).sum := by
  induction covers with
  | nil =>
    intro box _ _ _
    simp [Covers.find]
  | cons kv rest ih =>
    intro box hbox hkeys hsub
    obtain ⟨k, v⟩ := kv
    have hk : k ∈ box := hsub (k, v) (by simp)
    have hperm : List.Perm box (k :: box.erase k) := List.perm_cons_erase hk
    rw [(hperm.map _).sum_eq]
    simp only [List.map_cons, List.sum_cons]
    have hfindk : Covers.find ((k, v) :: rest) k = some v := by
      simp [Covers.find, List.find?]
    rw [hfindk]
    have hrest : ∀ pos ∈ box.erase k,
        Covers.find ((k, v) :: rest) pos = Covers.find rest pos := by
      intro pos hpos
      have hne : pos ≠ k := by
        intro he
        subst he
        exact (List.Nodup.not_mem_erase hbox) hpos
      simp [Covers.find, List.find?, Ne.symm hne]
    rw [List.map_congr_left (fun pos hpos => by rw [hrest pos hpos])]
    have hkeys' : (rest.map Prod.fst).Nodup := (List.nodup_cons.mp hkeys).2
    have hknotin : k ∉ rest.map Prod.fst := (List.nodup_cons.mp hkeys).1
    have hsub' : ∀ p ∈ rest, p.1 ∈ box.erase k := by
      intro p hp
      have h1 : p.1 ∈ box := hsub p (by simp [hp])
      have h2 : p.1 ≠ k := by
        intro he
        exact hknotin (he ▸ List.mem_map_of_mem Prod.fst hp)
      exact (List.Nodup.mem_erase_iff hbox).mpr ⟨h2, h1⟩
    rw [ih (box.erase k) (hbox.erase k) hkeys' hsub']

/-- Multiplicative counterpart of `covers_sum_eq`: uncovered positions
contribute the factor 1. -/
theorem covers_prod_eq (h : Coordinate → Int) (covers : Covers) :
    ∀ box : List Coordinate,
    box.Nodup → (covers.map Prod.fst).Nodup →
    (∀ p ∈ covers, p.1 ∈ box) →
    (box.map (fun pos =>
      if (covers.find pos).isSome then h pos else 1)).prod =
      (covers.map (fun p => h p.1)).prod := by
  induction covers with
  | nil =>
    intro box _ _ _
    simp [Covers.find]
  | cons kv rest ih =>
    intro box hbox hkeys hsub
    obtain ⟨k, v⟩ := kv
    have hk : k ∈ box := hsub (k, v) (by simp)
    have hperm : List.Perm box (k :: box.erase k) := List.perm_cons_erase hk
    rw [(hperm.map _).prod_eq]
    simp only [List.map_cons, List.prod_cons]
    have hfindk : Covers.find ((k, v) :: rest) k = some v := by
      simp [Covers.find, List.find?]
    rw [hfindk]
    have hrest : ∀ pos ∈ box.erase k,
        Covers.find ((k, v) :: rest) pos = Covers.find rest pos := by
      intro pos hpos
      have hne : pos ≠ k := by
        intro he
        subst he
        exact (List.Nodup.not_mem_erase hbox) hpos
      simp [Covers.find, List.find?, Ne.symm hne]
    rw [List.map_congr_left (fun pos hpos => by rw [hrest pos hpos])]
    have hkeys' : (rest.map Prod.fst).Nodup := (List.nodup_cons.mp hkeys).2
    have hknotin : k ∉ rest.map Prod.fst := (List.nodup_cons.mp hkeys).1
    have hsub' : ∀ p ∈ rest, p.1 ∈ box.erase k := by
      intro p hp
      have h1 : p.1 ∈ box := hsub p (by simp [hp])
      have h2 : p.1 ≠ k := by
        intro he
        exact hknotin (he ▸ List.mem_map_of_mem Prod.fst hp)
      exact (List.Nodup.mem_erase_iff hbox).mpr ⟨h2, h1⟩
    rw [ih (box.erase k) (hbox.erase k) hkeys' hsub']
    simp

/-- A sum of pointwise sums splits into two sums. -/
theorem map_sum_split {α : Type} (l : List α) (f g : α → Int) :
    (l.map (fun x => f x + g x)).sum = (l.map f).sum + (l.map g).sum := by
  induction l with
  | nil => simp
  | cons x xs ih => simp [ih]; ring

/-- Summing a value that vanishes on covered positions equals summing
over the uncovered positions only. -/
theorem sum_filter_uncovered (covers : Covers) (B : Coordinate → Int) :
    ∀ l : List Coordinate,
    (l.map (fun pos =>
      match covers.find pos with
      | some _ => 0
      | none => B pos)).sum =
      ((l.filter (fun pos => (covers.find pos).isNone)).map B).sum := by
  intro l
  induction l with
  | nil => simp
  | cons x xs ih =>
    cases hfx : covers.find x <;> simp [hfx, ih]

/-- The bounded square lookup succeeds inside the board. -/
theorem Board.Sq_eq_some (board : Board) (row col : Int)
    (h1 : 0 ≤ row) (h2 : row < 15) (h3 : 0 ≤ col) (h4 : col < 15) :
    board.Sq row col = some (board.squares row col) := by
  unfold Board.Sq BoardSize
  have hc : (decide (row < 0) || decide (row ≥ 15) || decide (col < 0) ||
      decide (col ≥ 15)) = false := by
    simp
    omega
  simp only [hc, Bool.false_eq_true, if_false]

/-- The walk of `TileMove.scoreLoop` along a horizontal move adds, to
its three accumulators, the per-square letter contributions, the
product of covered word multipliers, and the cross-score
contributions of the remaining box columns. -/
theorem scoreLoop_horizontal (state : GameState) (move : TileMove)
    (hrow : move.topLeft.row = move.bottomRight.row)
    (hr1 : 0 ≤ move.topLeft.row) (hr2 : move.topLeft.row < 15)
    (hc2 : move.bottomRight.col < 15) :
    ∀ (fuel : Nat) (col s m c : Int),
      0 ≤ col → col ≤ move.bottomRight.col →
      (move.bottomRight.col - col).toNat < fuel →
      TileMove.scoreLoop state move 0 1 fuel move.topLeft.row col (s, m, c) =
        (s + ((intRange col move.bottomRight.col).map
            (fun cc => scoreContribution state move ⟨move.topLeft.row, cc⟩)).sum,
         m * ((intRange col move.bottomRight.col).map
            (fun cc => scoreMultAt state move ⟨move.topLeft.row, cc⟩)).prod,
         c + ((intRange col move.bottomRight.col).map
            (fun cc => scoreCrossAt state move ⟨move.topLeft.row, cc⟩)).sum) := by
  intro fuel
  induction fuel with
  | zero =>
    intro col s m c h0 h1 h2
    omega
  | succ fuel ih =>
    intro col s m c h0 h1 h2
    rw [TileMove.scoreLoop]
    rw [Board.Sq_eq_some state.board move.topLeft.row col hr1 hr2 h0 (by omega)]
    dsimp only
    rw [intRange_cons col move.bottomRight.col h1]
    by_cases hend : col = move.bottomRight.col
    · have hbreak : move.topLeft.row ≥ move.bottomRight.row ∧
          col ≥ move.bottomRight.col := ⟨by omega, by omega⟩
      rw [if_pos hbreak]
      rw [intRange_empty (col + 1) move.bottomRight.col (by omega)]
      cases hfind : move.covers.find ⟨move.topLeft.row, col⟩ with
      | none => simp [scoreContribution, scoreMultAt, scoreCrossAt, hfind]
      | some cover =>
        simp only [hfind]
        cases hcs : (state.board.CrossScore move.topLeft.row col
            (!move.horizontal)).1 <;>
          simp [scoreContribution, scoreMultAt, scoreCrossAt, hfind, hcs]
    · have hnotbreak : ¬(move.topLeft.row ≥ move.bottomRight.row ∧
          col ≥ move.bottomRight.col) := by
        intro hcon
        omega
      rw [if_neg hnotbreak]
      cases hfind : move.covers.find ⟨move.topLeft.row, col⟩ with
      | none =>
        dsimp only
        simp only [add_zero]
        rw [ih (col + 1) _ _ _ (by omega) (by omega) (by omega)]
        simp [scoreContribution, scoreMultAt, scoreCrossAt, hfind]
        ring
      | some cover =>
        dsimp only
        simp only [add_zero]
        rw [ih (col + 1) _ _ _ (by omega) (by omega) (by omega)]
        simp [scoreContribution, scoreMultAt, scoreCrossAt, hfind]
        refine ⟨by ring, by ring, ?_⟩
        cases hcs : (state.board.CrossScore move.topLeft.row col
            (!move.horizontal)).1 <;> simp [hcs] <;> ring

/-- Vertical counterpart of `scoreLoop_horizontal`. -/
theorem scoreLoop_vertical (state : GameState) (move : TileMove)
    (hcol : move.topLeft.col = move.bottomRight.col)
    (hc1 : 0 ≤ move.topLeft.col) (hc2 : move.topLeft.col < 15)
    (hr2 : move.bottomRight.row < 15) :
    ∀ (fuel : Nat) (row s m c : Int),
      0 ≤ row → row ≤ move.bottomRight.row →
      (move.bottomRight.row - row).toNat < fuel →
      TileMove.scoreLoop state move 1 0 fuel row move.topLeft.col (s, m, c) =
        (s + ((intRange row move.bottomRight.row).map
            (fun rr => scoreContribution state move ⟨rr, move.topLeft.col⟩)).sum,
         m * ((intRange row move.bottomRight.row).map
            (fun rr => scoreMultAt state move ⟨rr, move.topLeft.col⟩)).prod,
         c + ((intRange row move.bottomRight.row).map
            (fun rr => scoreCrossAt state move ⟨rr, move.topLeft.col⟩)).sum) := by
  intro fuel
  induction fuel with
  | zero =>
    intro row s m c h0 h1 h2
    omega
  | succ fuel ih =>
    intro row s m c h0 h1 h2
    rw [TileMove.scoreLoop]
    rw [Board.Sq_eq_some state.board row move.topLeft.col h0 (by omega) hc1 hc2]
    dsimp only
    rw [intRange_cons row move.bottomRight.row h1]
    by_cases hend : row = move.bottomRight.row
    · have hbreak : row ≥ move.bottomRight.row ∧
          move.topLeft.col ≥ move.bottomRight.col := ⟨by omega, by omega⟩
      rw [if_pos hbreak]
      rw [intRange_empty (row + 1) move.bottomRight.row (by omega)]
      cases hfind : move.covers.find ⟨row, move.topLeft.col⟩ with
      | none => simp [scoreContribution, scoreMultAt, scoreCrossAt, hfind]
      | some cover =>
        simp only [hfind]
        cases hcs : (state.board.CrossScore row move.topLeft.col
            (!move.horizontal)).1 <;>
          simp [scoreContribution, scoreMultAt, scoreCrossAt, hfind, hcs]
    · have hnotbreak : ¬(row ≥ move.bottomRight.row ∧
          move.topLeft.col ≥ move.bottomRight.col) := by
        intro hcon
        omega
      rw [if_neg hnotbreak]
      cases hfind : move.covers.find ⟨row, move.topLeft.col⟩ with
      | none =>
        dsimp only
        simp only [add_zero]
        rw [ih (row + 1) _ _ _ (by omega) (by omega) (by omega)]
        simp [scoreContribution, scoreMultAt, scoreCrossAt, hfind]
        ring
      | some cover =>
        dsimp only
        simp only [add_zero]
        rw [ih (row + 1) _ _ _ (by omega) (by omega) (by omega)]
        simp [scoreContribution, scoreMultAt, scoreCrossAt, hfind]
        refine ⟨by ring, by ring, ?_⟩
        cases hcs : (state.board.CrossScore row move.topLeft.col
            (!move.horizontal)).1 <;> simp [hcs] <;> ring

/-- The inclusive Int range has no duplicates. -/
theorem intRange_nodup (a b : Int) : (intRange a b).Nodup := by
  unfold intRange
  apply List.Nodup.map
  · intro x y hxy
    simp only [add_right_inj] at hxy
    exact Int.ofNat.inj hxy
  · exact List.nodup_range _

/-- The bounding-box positions of a move have no duplicates. -/
theorem boxPositions_nodup (move : TileMove) : move.boxPositions.Nodup := by
  unfold TileMove.boxPositions
  split <;>
  · apply List.Nodup.map
    · intro x y hxy
      simp_all
    · exact intRange_nodup _ _

/-- C4: for every well-formed TileMove and game state, `TileMove.Score`
equals the scoring rule of the specification: back fragment plus
covered letters (tile-set score times letter multiplier) plus
on-board tiles passed through plus forward fragment, all times the
product of covered word multipliers, plus the cross-word contributions
(cross fragment sum plus the square letter contribution, times that
square word multiplier), plus 50 exactly for seven covers. -/
theorem C4_score (state : GameState) (move : TileMove)
    (wf : move.wellFormedOn state.board) :
    move.Score state = move.specScore state := by
  have hcache := wf.cacheFree
  have hbounds := wf.inBounds
  have hstraight := wf.straight
  have hnodupK := wf.coversNodup
  have hsub := wf.coversInBox
  norm_num [BoardSize] at hbounds
  obtain ⟨h1, h2, h3, h4, h5, h6, h7, h8⟩ := hbounds
  have hnodupB := boxPositions_nodup move
  have hcontribB : move.boxPositions.map (scoreContribution state move) =
      move.boxPositions.map (fun pos =>
        (match move.covers.find pos with
         | some cv => state.tileSet.scores cv.letter *
             (state.board.squares pos.row pos.col).letterMultiplier
         | none => 0) +
        (match move.covers.find pos with
         | some _ => 0
         | none => (((state.board.squares pos.row pos.col).tile).map
             Tile.score).getD 0)) :=
    List.map_congr_left (fun pos _ => by
      cases hf : move.covers.find pos <;> simp [scoreContribution, hf])
  have hcontrib : (move.boxPositions.map (scoreContribution state move)).sum =
      (move.covers.map (fun p => state.tileSet.scores p.2.letter *
        (state.board.squares p.1.row p.1.col).letterMultiplier)).sum +
      ((move.boxPositions.filter (fun pos => (move.covers.find pos).isNone)).map
        (fun pos => (((state.board.squares pos.row pos.col).tile).map
          Tile.score).getD 0)).sum := by
    rw [hcontribB, map_sum_split]
    rw [covers_sum_eq (fun pos cv => state.tileSet.scores cv.letter *
      (state.board.squares pos.row pos.col).letterMultiplier) move.covers
      move.boxPositions hnodupB hnodupK hsub]
    rw [sum_filter_uncovered]
  have hmultB : move.boxPositions.map (scoreMultAt state move) =
      move.boxPositions.map (fun pos =>
        if (move.covers.find pos).isSome then
          (state.board.squares pos.row pos.col).wordMultiplier
        else 1) :=
    List.map_congr_left (fun pos _ => by simp [scoreMultAt])
  have hmult : (move.boxPositions.map (scoreMultAt state move)).prod =
      (move.covers.map (fun p =>
        (state.board.squares p.1.row p.1.col).wordMultiplier)).prod := by
    rw [hmultB]
    rw [covers_prod_eq (fun pos =>
      (state.board.squares pos.row pos.col).wordMultiplier) move.covers
      move.boxPositions hnodupB hnodupK hsub]
  have hcrossB : move.boxPositions.map (scoreCrossAt state move) =
      move.boxPositions.map (fun pos =>
        match move.covers.find pos with
        | some cv =>
          (if (state.board.CrossScore pos.row pos.col (!move.horizontal)).1 then
            ((state.board.CrossScore pos.row pos.col (!move.horizontal)).2 +
              state.tileSet.scores cv.letter *
                (state.board.squares pos.row pos.col).letterMultiplier) *
              (state.board.squares pos.row pos.col).wordMultiplier
           else 0)
        | none => 0) :=
    List.map_congr_left (fun pos _ => by
      cases hf : move.covers.find pos <;> simp [scoreCrossAt, hf])
  have hcross : (move.boxPositions.map (scoreCrossAt state move)).sum =
      (move.covers.map (fun p =>
        let sq := state.board.squares p.1.row p.1.col
        let cs := state.board.CrossScore p.1.row p.1.col (!move.horizontal)
        if cs.1 then
          (cs.2 + state.tileSet.scores p.2.letter * sq.letterMultiplier) *
            sq.wordMultiplier
        else 0)).sum := by
    rw [hcrossB]
    rw [covers_sum_eq (fun pos cv =>
      if (state.board.CrossScore pos.row pos.col (!move.horizontal)).1 then
        ((state.board.CrossScore pos.row pos.col (!move.horizontal)).2 +
          state.tileSet.scores cv.letter *
            (state.board.squares pos.row pos.col).letterMultiplier) *
          (state.board.squares pos.row pos.col).wordMultiplier
      else 0) move.covers move.boxPositions hnodupB hnodupK hsub]
  unfold TileMove.Score TileMove.specScore
  rw [hcache]
  cases hhor : move.horizontal with
  | true =>
    rw [hhor] at hstraight
    simp only [if_true] at hstraight
    obtain ⟨hrow, hcle⟩ := hstraight
    have hbox : move.boxPositions = (intRange move.topLeft.col
        move.bottomRight.col).map
        (fun cc => (⟨move.topLeft.row, cc⟩ : Coordinate)) := by
      unfold TileMove.boxPositions
      rw [hhor]
      simp
    simp only [if_true]
    rw [scoreLoop_horizontal state move hrow h1 h2 h8 16 move.topLeft.col _ _ _
      h3 hcle (by omega)]
    have e1 : (intRange move.topLeft.col move.bottomRight.col).map
        (fun cc => scoreContribution state move ⟨move.topLeft.row, cc⟩) =
        move.boxPositions.map (scoreContribution state move) := by
      rw [hbox, List.map_map]
      rfl
    have e2 : (intRange move.topLeft.col move.bottomRight.col).map
        (fun cc => scoreMultAt state move ⟨move.topLeft.row, cc⟩) =
        move.boxPositions.map (scoreMultAt state move) := by
      rw [hbox, List.map_map]
      rfl
    have e3 : (intRange move.topLeft.col move.bottomRight.col).map
        (fun cc => scoreCrossAt state move ⟨move.topLeft.row, cc⟩) =
        move.boxPositions.map (scoreCrossAt state move) := by
      rw [hbox, List.map_map]
      rfl
    rw [e1, e2, e3, hcontrib, hmult]
    rw [hhor] at hcross
    rw [hcross]
    by_cases hbingo : move.covers.length = RackSize
    · rw [if_pos hbingo, if_pos hbingo]
      ring
    · rw [if_neg hbingo, if_neg hbingo]
      ring
  | false =>
    rw [hhor] at hstraight
    simp only [Bool.false_eq_true, if_false] at hstraight
    obtain ⟨hcol, hrle⟩ := hstraight
    have hbox : move.boxPositions = (intRange move.topLeft.row
        move.bottomRight.row).map
        (fun rr => (⟨rr, move.topLeft.col⟩ : Coordinate)) := by
      unfold TileMove.boxPositions
      rw [hhor]
      simp
    simp only [Bool.false_eq_true, if_false]
    rw [scoreLoop_vertical state move hcol h3 h4 h6 16 move.topLeft.row _ _ _
      h1 hrle (by omega)]
    have e1 : (intRange move.topLeft.row move.bottomRight.row).map
        (fun rr => scoreContribution state move ⟨rr, move.topLeft.col⟩) =
        move.boxPositions.map (scoreContribution state move) := by
      rw [hbox, List.map_map]
      rfl
    have e2 : (intRange move.topLeft.row move.bottomRight.row).map
        (fun rr => scoreMultAt state move ⟨rr, move.topLeft.col⟩) =
        move.boxPositions.map (scoreMultAt state move) := by
      rw [hbox, List.map_map]
      rfl
    have e3 : (intRange move.topLeft.row move.bottomRight.row).map
        (fun rr => scoreCrossAt state move ⟨rr, move.topLeft.col⟩) =
        move.boxPositions.map (scoreCrossAt state move) := by
      rw [hbox, List.map_map]
      rfl
    rw [e1, e2, e3, hcontrib, hmult]
    rw [hhor] at hcross
    rw [hcross]
    by_cases hbingo : move.covers.length = RackSize
    · rw [if_pos hbingo, if_pos hbingo]
      ring
    · rw [if_neg hbingo, if_neg hbingo]
      ring


/-- Witness for C4 at a concrete input: the generator-scenario move
(cover b on (2,6), double-letter square, extending the a at (2,5))
scores 7 = (1 + 3*2) * 1 under the concrete tile set. -/
theorem C4_score_witness :
    TileMove.Score c2Move c4State = 7 ∧
    TileMove.Score c2Move c4State = TileMove.specScore c2Move c4State :=
  ⟨by decide, C4_score c4State c2Move (by constructor <;> decide)⟩

/-! ### C3: the Match navigation computes exactly the pattern-matching
words of the DAWG, and hence the cross-set is exact. -/

theorem partMatches_nil (p : List Char) : partMatches p [] = true := by
  cases p <;> rfl

theorem partMatches_snoc (p m : List Char) (c : Char)
    (hm : partMatches p m = true)
    (hc : p.getD m.length ' ' = '?' ∨ p.getD m.length ' ' = c) :
    partMatches p (m ++ [c]) = true := by
  induction m generalizing p with
  | nil =>
    cases p with
    | nil => rfl
    | cons q qs =>
      simp only [List.length_nil, List.getD_cons_zero] at hc
      simp only [List.nil_append, partMatches, Bool.and_eq_true, Bool.or_eq_true,
        decide_eq_true_eq]
      exact ⟨hc, trivial⟩
  | cons a as ih =>
    cases p with
    | nil => rfl
    | cons q qs =>
      simp only [List.length_cons, List.getD_cons_succ] at hc
      simp only [List.cons_append, partMatches, Bool.and_eq_true] at hm ⊢
      exact ⟨hm.1, ih qs hm.2 hc⟩

theorem partMatches_extend_fail (p m : List Char) (c : Char) (suf : List Char)
    (hlen : m.length < p.length)
    (hq : p.getD m.length ' ' ≠ '?')
    (hc : p.getD m.length ' ' ≠ c) :
    partMatches p (m ++ c :: suf) = false := by
  induction m generalizing p with
  | nil =>
    cases p with
    | nil => simp at hlen
    | cons q qs =>
      simp only [List.length_nil, List.getD_cons_zero] at hq hc
      simp [partMatches, hq, hc]
  | cons a as ih =>
    cases p with
    | nil => simp at hlen
    | cons q qs =>
      simp only [List.length_cons, Nat.add_lt_add_iff_right] at hlen
      simp only [List.length_cons, List.getD_cons_succ] at hq hc
      simp [partMatches, ih qs (by simpa using hlen) hq hc]

theorem matchesPattern_too_long (p m suf : List Char)
    (hlen : p.length ≤ m.length) (hsuf : suf ≠ []) :
    matchesPattern p (m ++ suf) = false := by
  have hpos : 0 < suf.length := List.length_pos.mpr hsuf
  simp only [matchesPattern, List.length_append, Bool.and_eq_false_iff,
    decide_eq_false_iff_not]
  left; omega

theorem matchesPattern_extend_fail (p m : List Char) (c : Char) (suf : List Char)
    (hq : p.getD m.length ' ' ≠ '?')
    (hc : p.getD m.length ' ' ≠ c) :
    matchesPattern p (m ++ c :: suf) = false := by
  by_cases hlen : m.length < p.length
  · simp [matchesPattern, partMatches_extend_fail p m c suf hlen hq hc]
  · exact matchesPattern_too_long p m (c :: suf) (by omega) (by simp)

theorem matchesPattern_of_partMatches (p m : List Char)
    (hm : partMatches p m = true) :
    matchesPattern p m = decide (m.length = p.length) := by
  simp [matchesPattern, hm]

theorem wordsFromEdge_mid (d : Dawg) (descend : Nat → List Char → List (List Char))
    (c c2 : Char) (r : List Char) (n : Nat) (m : List Char) (h : c2 ≠ '|') :
    wordsFromEdge d descend (c :: c2 :: r) n m =
      wordsFromEdge d descend (c2 :: r) n (m ++ [c]) := by
  rw [wordsFromEdge]
  exact fun hc => h hc

theorem edgeShape_cons (c : Char) (r : List Char) :
    edgeShape (c :: r) =
      (decide (c ≠ '|') &&
        (if r.headD ' ' = '|' then edgeShape r.tail else edgeShape r)) := by
  rw [edgeShape]

theorem edgeShape_spec_nil (d : Dawg)
    (descend : Nat → List Char → List (List Char))
    (hdesc : ∀ n m w, w ∈ descend n m →
      ∃ suf, w = m ++ suf ∧ suf ≠ [] ∧ ∀ ch ∈ suf, ch ∈ d.alphabet.asRunes)
    (n : Nat) (m : List Char) (w : List Char)
    (hw : w ∈ wordsFromEdge d descend [] n m) :
    ∃ suf, w = m ++ suf ∧ suf ≠ [] ∧ (∀ ch ∈ suf, ch ∈ d.alphabet.asRunes) ∧
      ∀ c rest, ([] : List Char) = c :: rest → suf.headD ' ' = c := by
  by_cases hn : n = 0
  · simp [wordsFromEdge, hn] at hw
  · simp only [wordsFromEdge, hn, ne_eq, not_false_eq_true, if_true, if_pos] at hw
    obtain ⟨suf, rfl, hne, hch⟩ := hdesc n m w hw
    exact ⟨suf, rfl, hne, hch, fun c rest hcr => by simp at hcr⟩

theorem wordsFromEdge_spec (d : Dawg)
    (descend : Nat → List Char → List (List Char))
    (hdesc : ∀ n m w, w ∈ descend n m →
      ∃ suf, w = m ++ suf ∧ suf ≠ [] ∧ ∀ ch ∈ suf, ch ∈ d.alphabet.asRunes) :
    ∀ (k : Nat) (pfx : List Char) (n : Nat) (m w : List Char),
      pfx.length ≤ k → edgeShape pfx = true →
      (∀ ch ∈ pfx, ch = '|' ∨ ch ∈ d.alphabet.asRunes) →
      w ∈ wordsFromEdge d descend pfx n m →
      ∃ suf, w = m ++ suf ∧ suf ≠ [] ∧ (∀ ch ∈ suf, ch ∈ d.alphabet.asRunes) ∧
        ∀ c rest, pfx = c :: rest → suf.headD ' ' = c := by
  intro k
  induction k with
  | zero =>
    intro pfx n m w hk _ _ hw
    have hpfx : pfx = [] := List.eq_nil_of_length_eq_zero (Nat.le_zero.mp hk)
    subst hpfx
    exact edgeShape_spec_nil d descend hdesc n m w hw
  | succ k ih =>
    intro pfx n m w hk hshape halpha hw
    cases pfx with
    | nil => exact edgeShape_spec_nil d descend hdesc n m w hw
    | cons c rest =>
      have hc : c ≠ '|' := by
        rw [edgeShape_cons] at hshape
        simp only [Bool.and_eq_true, decide_eq_true_eq] at hshape
        exact hshape.1
      have hcalpha : c ∈ d.alphabet.asRunes := by
        rcases halpha c (by simp) with h | h
        · exact absurd h hc
        · exact h
      cases rest with
      | nil =>
        have hw' : w ∈ (if n = 0 || d.headerFinal n then [m ++ [c]] else []) ++
            (if n ≠ 0 then descend n (m ++ [c]) else []) := hw
        rcases List.mem_append.mp hw' with hw2 | hw2
        · have hwc : w = m ++ [c] := by
            split at hw2
            · simpa using hw2
            · simp at hw2
          refine ⟨[c], hwc, by simp, by simpa using hcalpha, ?_⟩
          intro c' rest' hcr
          have : c = c' := (List.cons.injEq _ _ _ _).mp hcr |>.1
          simp [this]
        · have hwd : w ∈ descend n (m ++ [c]) := by
            split at hw2
            · exact hw2
            · simp at hw2
          obtain ⟨suf, hsuf, hne, hch⟩ := hdesc n (m ++ [c]) w hwd
          refine ⟨c :: suf, by simp [hsuf], by simp, ?_, ?_⟩
          · intro ch hch2
            rcases List.mem_cons.mp hch2 with h | h
            · exact h ▸ hcalpha
            · exact hch ch h
          · intro c' rest' hcr
            have : c = c' := (List.cons.injEq _ _ _ _).mp hcr |>.1
            simp [this]
      | cons c2 rest2 =>
        by_cases hsep : c2 = '|'
        · subst hsep
          have hshape2 : edgeShape rest2 = true := by
            rw [edgeShape_cons] at hshape
            exact (by simpa using hshape : ¬c = '|' ∧ edgeShape rest2 = true).2
          have hw' : w ∈ (m ++ [c]) :: wordsFromEdge d descend rest2 n (m ++ [c]) := hw
          rcases List.mem_cons.mp hw' with hw2 | hw2
          · refine ⟨[c], hw2, by simp, by simpa using hcalpha, ?_⟩
            intro c' rest' hcr
            have : c = c' := (List.cons.injEq _ _ _ _).mp hcr |>.1
            simp [this]
          · obtain ⟨suf, hsuf, hne, hch, _⟩ :=
              ih rest2 n (m ++ [c]) w (by simp at hk; omega) hshape2
                (fun ch h => halpha ch (by simp [h])) hw2
            refine ⟨c :: suf, by simp [hsuf], by simp, ?_, ?_⟩
            · intro ch hch2
              rcases List.mem_cons.mp hch2 with h | h
              · exact h ▸ hcalpha
              · exact hch ch h
            · intro c' rest' hcr
              have : c = c' := (List.cons.injEq _ _ _ _).mp hcr |>.1
              simp [this]
        · rw [wordsFromEdge_mid d descend c c2 rest2 n m hsep] at hw
          have hshape2 : edgeShape (c2 :: rest2) = true := by
            rw [edgeShape_cons] at hshape
            simp only [List.headD_cons] at hshape
            rw [if_neg hsep] at hshape
            exact (by simpa using hshape :
              ¬c = '|' ∧ edgeShape (c2 :: rest2) = true).2
          obtain ⟨suf, hsuf, hne, hch, _⟩ :=
            ih (c2 :: rest2) n (m ++ [c]) w (by simp at hk ⊢; omega) hshape2
              (fun ch h => halpha ch (by simp at h; rcases h with h | h <;> simp [h])) hw
          refine ⟨c :: suf, by simp [hsuf], by simp, ?_, ?_⟩
          · intro ch hch2
            rcases List.mem_cons.mp hch2 with h | h
            · exact h ▸ hcalpha
            · exact hch ch h
          · intro c' rest' hcr
            have : c = c' := (List.cons.injEq _ _ _ _).mp hcr |>.1
            simp [this]

theorem wordsFromNode_spec (d : Dawg) (wf : DawgWF d) :
    ∀ (fuel offset : Nat) (m w : List Char),
      w ∈ wordsFromNode d fuel offset m →
      ∃ suf, w = m ++ suf ∧ suf ≠ [] ∧ ∀ ch ∈ suf, ch ∈ d.alphabet.asRunes := by
  intro fuel
  induction fuel with
  | zero => intro offset m w hw; simp [wordsFromNode] at hw
  | succ fuel ih =>
    intro offset m w hw
    simp only [wordsFromNode, List.mem_flatMap] at hw
    obtain ⟨e, he, hw⟩ := hw
    obtain ⟨suf, hsuf, hne, hch, _⟩ :=
      wordsFromEdge_spec d (wordsFromNode d fuel) (ih) e.pfx.length e.pfx
        e.nextNode m w le_rfl (wf.edgeShaped offset e he)
        (wf.edgeAlpha offset e he) hw
    exact ⟨suf, hsuf, hne, hch⟩

theorem wordsFilter_node_too_long (d : Dawg) (wf : DawgWF d) (fuel offset : Nat)
    (m pattern : List Char) (hlen : pattern.length ≤ m.length) :
    (wordsFromNode d fuel offset m).filter (matchesPattern pattern) = [] := by
  rw [List.filter_eq_nil_iff]
  intro w hw
  obtain ⟨suf, rfl, hne, _⟩ := wordsFromNode_spec d wf fuel offset m w hw
  simp [matchesPattern_too_long pattern m suf hlen hne]

theorem wordsFilter_edge_too_long (d : Dawg) (wf : DawgWF d) (fuel : Nat)
    (pfx : List Char) (n : Nat) (m pattern : List Char)
    (hshape : edgeShape pfx = true)
    (halpha : ∀ ch ∈ pfx, ch = '|' ∨ ch ∈ d.alphabet.asRunes)
    (hlen : pattern.length ≤ m.length) :
    (wordsFromEdge d (wordsFromNode d fuel) pfx n m).filter
      (matchesPattern pattern) = [] := by
  rw [List.filter_eq_nil_iff]
  intro w hw
  obtain ⟨suf, rfl, hne, _, _⟩ :=
    wordsFromEdge_spec d (wordsFromNode d fuel) (wordsFromNode_spec d wf fuel)
      pfx.length pfx n m w le_rfl hshape halpha hw
  simp [matchesPattern_too_long pattern m suf hlen hne]

theorem wordsFilter_edge_wrong_first (d : Dawg) (wf : DawgWF d) (fuel : Nat)
    (c : Char) (rest : List Char) (n : Nat) (m pattern : List Char)
    (hshape : edgeShape (c :: rest) = true)
    (halpha : ∀ ch ∈ c :: rest, ch = '|' ∨ ch ∈ d.alphabet.asRunes)
    (hq : pattern.getD m.length ' ' ≠ '?')
    (hc : pattern.getD m.length ' ' ≠ c) :
    (wordsFromEdge d (wordsFromNode d fuel) (c :: rest) n m).filter
      (matchesPattern pattern) = [] := by
  rw [List.filter_eq_nil_iff]
  intro w hw
  obtain ⟨suf, rfl, hne, _, hhead⟩ :=
    wordsFromEdge_spec d (wordsFromNode d fuel) (wordsFromNode_spec d wf fuel)
      (c :: rest).length (c :: rest) n m w le_rfl hshape halpha hw
  cases suf with
  | nil => exact absurd rfl hne
  | cons s0 stail =>
    have hs0 : s0 = c := by simpa using hhead c rest rfl
    subst hs0
    simp [matchesPattern_extend_fail pattern m s0 stail hq hc]

theorem matchNavigator_ext (a b : MatchNavigator)
    (h1 : a.pattern = b.pattern) (h2 : a.lenP = b.lenP) (h3 : a.index = b.index)
    (h4 : a.chMatch = b.chMatch) (h5 : a.isWildcard = b.isWildcard)
    (h6 : a.stack = b.stack) (h7 : a.results = b.results) : a = b := by
  cases a; cases b; simp_all

theorem matchGood_set_results (pattern m : List Char) (mn : MatchNavigator)
    (r : List (List Char)) (hgood : matchGood pattern m mn) :
    matchGood pattern m { mn with results := r } := hgood

theorem matchGood_set_stack (pattern m : List Char) (mn : MatchNavigator)
    (st : List matchItem) (hgood : matchGood pattern m mn) :
    matchGood pattern m { mn with stack := st } := hgood

theorem matchAccepts_reject (mn : MatchNavigator) (c : Char)
    (h : c ≠ mn.chMatch ∧ ¬(mn.isWildcard = true)) :
    MatchNavigator.nav.Accepts mn c = (false, mn) := by
  simp only [MatchNavigator.nav]
  rw [if_pos h]

theorem matchAccepts_accept (pattern m : List Char) (mn : MatchNavigator) (c : Char)
    (hgood : matchGood pattern m mn) (hacc : mn.index < mn.lenP)
    (hok : ¬(c ≠ mn.chMatch ∧ ¬(mn.isWildcard = true))) :
    (MatchNavigator.nav.Accepts mn c).1 = true ∧
    matchGood pattern (m ++ [c]) (MatchNavigator.nav.Accepts mn c).2 ∧
    (MatchNavigator.nav.Accepts mn c).2.stack = mn.stack ∧
    (MatchNavigator.nav.Accepts mn c).2.results = mn.results := by
  obtain ⟨hpat, hlenP, hidx, hpm, hcache⟩ := hgood
  obtain ⟨hch, hwild⟩ := hcache hacc
  have hstep : pattern.getD m.length ' ' = '?' ∨ pattern.getD m.length ' ' = c := by
    rcases not_and_or.mp hok with h | h
    · right; rw [← hidx, ← hch]; exact (not_not.mp h).symm
    · left
      have : mn.isWildcard = true := not_not.mp h
      rw [hwild] at this
      rw [← hidx, ← hch]
      exact of_decide_eq_true this
  have hpm1 : partMatches pattern (m ++ [c]) = true := partMatches_snoc pattern m c hpm hstep
  simp only [MatchNavigator.nav]
  rw [if_neg hok]
  by_cases hlt : mn.index + 1 < mn.lenP
  · rw [if_pos hlt]
    refine ⟨rfl, ⟨hpat, hlenP, by simp [hidx], hpm1, ?_⟩, rfl, rfl⟩
    intro _
    constructor
    · simp [hpat, hidx]
    · rfl
  · rw [if_neg hlt]
    refine ⟨rfl, ⟨hpat, hlenP, by simp [hidx], hpm1, ?_⟩, rfl, rfl⟩
    intro h
    exact absurd h (by simpa using hlt)

theorem matchAccept_eq (pattern m1 : List Char) (s1 : MatchNavigator)
    (final : Bool) (st : Option NavEdge) (hgood : matchGood pattern m1 s1) :
    MatchNavigator.nav.Accept s1 m1 final st =
      { s1 with results := s1.results ++
          (if final then [m1] else []).filter (matchesPattern pattern) } := by
  obtain ⟨hpat, hlenP, hidx, hpm, _⟩ := hgood
  simp only [MatchNavigator.nav]
  cases final with
  | false => simp
  | true =>
    have hF : matchesPattern pattern m1 = decide (m1.length = pattern.length) :=
      matchesPattern_of_partMatches pattern m1 hpm
    by_cases heq : m1.length = pattern.length
    · rw [if_pos ⟨rfl, by rw [hidx, hlenP]; exact heq⟩]
      simp [hF, heq]
    · rw [if_neg (by
        rintro ⟨-, h⟩
        rw [hidx, hlenP] at h
        exact heq h)]
      simp [hF, heq]


theorem matchAccept_eq_true (pattern m1 : List Char) (s1 : MatchNavigator)
    (st : Option NavEdge) (hgood : matchGood pattern m1 s1) :
    MatchNavigator.nav.Accept s1 m1 true st =
      { s1 with results := s1.results ++
          List.filter (matchesPattern pattern) [m1] } := by
  rw [matchAccept_eq pattern m1 s1 true st hgood]
  simp

theorem matchAccept_eq_false (m1 : List Char) (s1 : MatchNavigator)
    (st : Option NavEdge) :
    MatchNavigator.nav.Accept s1 m1 false st = s1 := by
  simp [MatchNavigator.nav]

theorem matchIsAccepting (s : MatchNavigator) :
    MatchNavigator.nav.IsAccepting s = decide (s.index < s.lenP) := rfl

theorem navFromEdge_nil (d : Dawg) (nv : Navigator σ)
    (descend : Nat → List Char → σ → σ) (n : Nat) (m : List Char) (s : σ) :
    navFromEdge d nv false descend [] n m s =
      if n ≠ 0 && nv.IsAccepting s then descend n m s else s := rfl

theorem navFromEdge_one (d : Dawg) (nv : Navigator σ)
    (descend : Nat → List Char → σ → σ) (c : Char) (n : Nat) (m : List Char) (s : σ) :
    navFromEdge d nv false descend [c] n m s =
      (if nv.IsAccepting s then
        if (nv.Accepts s c).1 then
          if n ≠ 0 && nv.IsAccepting
              (nv.Accept (nv.Accepts s c).2 (m ++ [c]) (n = 0 || d.headerFinal n) none) then
            descend n (m ++ [c])
              (nv.Accept (nv.Accepts s c).2 (m ++ [c]) (n = 0 || d.headerFinal n) none)
          else nv.Accept (nv.Accepts s c).2 (m ++ [c]) (n = 0 || d.headerFinal n) none
        else (nv.Accepts s c).2
      else s) := rfl

theorem navFromEdge_sep (d : Dawg) (nv : Navigator σ)
    (descend : Nat → List Char → σ → σ) (c : Char) (r : List Char)
    (n : Nat) (m : List Char) (s : σ) :
    navFromEdge d nv false descend (c :: '|' :: r) n m s =
      (if nv.IsAccepting s then
        if (nv.Accepts s c).1 then
          navFromEdge d nv false descend r n (m ++ [c])
            (nv.Accept (nv.Accepts s c).2 (m ++ [c]) true none)
        else (nv.Accepts s c).2
      else s) := rfl

theorem navFromEdge_mid (d : Dawg) (nv : Navigator σ)
    (descend : Nat → List Char → σ → σ) (c c2 : Char) (r : List Char)
    (n : Nat) (m : List Char) (s : σ) (h : c2 ≠ '|') :
    navFromEdge d nv false descend (c :: c2 :: r) n m s =
      (if nv.IsAccepting s then
        if (nv.Accepts s c).1 then
          navFromEdge d nv false descend (c2 :: r) n (m ++ [c])
            (nv.Accept (nv.Accepts s c).2 (m ++ [c]) false none)
        else (nv.Accepts s c).2
      else s) := by
  rw [navFromEdge]
  · rfl
  · exact fun hc => h hc

theorem navFromEdge_match_nil (d : Dawg) (wf : DawgWF d) (fuel : Nat)
    (pattern : List Char)
    (hdesc : ∀ (n : Nat) (m' : List Char) (s' : MatchNavigator),
      matchGood pattern m' s' → s'.index < s'.lenP →
      navFromNode d MatchNavigator.nav false fuel n m' s' =
        { s' with results := s'.results ++
            (wordsFromNode d fuel n m').filter (matchesPattern pattern) })
    (n : Nat) (m : List Char) (mn : MatchNavigator)
    (hgood : matchGood pattern m mn) :
    matchFrame pattern mn
      (navFromEdge d MatchNavigator.nav false
        (navFromNode d MatchNavigator.nav false fuel) [] n m mn)
      (wordsFromEdge d (wordsFromNode d fuel) [] n m) := by
  obtain ⟨hpat, hlenP, hidx, hpm, hcache⟩ := hgood
  rw [navFromEdge_nil]
  by_cases hn : n = 0
  · subst hn
    rw [if_neg (by simp)]
    refine ⟨hpat, hlenP, rfl, ?_⟩
    show mn.results = mn.results ++
      (wordsFromEdge d (wordsFromNode d fuel) [] 0 m).filter (matchesPattern pattern)
    simp [wordsFromEdge]
  · by_cases hacc : mn.index < mn.lenP
    · rw [if_pos (by simp [matchIsAccepting, hn, hacc])]
      rw [hdesc n m mn ⟨hpat, hlenP, hidx, hpm, hcache⟩ hacc]
      refine ⟨hpat, hlenP, rfl, ?_⟩
      show mn.results ++ _ = mn.results ++ _
      congr 1
      show (wordsFromNode d fuel n m).filter (matchesPattern pattern) = _
      simp [wordsFromEdge, hn]
    · rw [if_neg (by simp [matchIsAccepting, hacc])]
      refine ⟨hpat, hlenP, rfl, ?_⟩
      show mn.results = mn.results ++ _
      have : (wordsFromEdge d (wordsFromNode d fuel) [] n m).filter
          (matchesPattern pattern) = [] := by
        show ((if n ≠ 0 then wordsFromNode d fuel n m else []) : List (List Char)).filter
          (matchesPattern pattern) = []
        rw [if_pos hn]
        exact wordsFilter_node_too_long d wf fuel n m pattern (by omega)
      simp [this]

theorem navFromEdge_match (d : Dawg) (wf : DawgWF d) (fuel : Nat)
    (pattern : List Char)
    (hdesc : ∀ (n : Nat) (m' : List Char) (s' : MatchNavigator),
      matchGood pattern m' s' → s'.index < s'.lenP →
      navFromNode d MatchNavigator.nav false fuel n m' s' =
        { s' with results := s'.results ++
            (wordsFromNode d fuel n m').filter (matchesPattern pattern) }) :
    ∀ (k : Nat) (pfx : List Char) (n : Nat) (m : List Char) (mn : MatchNavigator),
      pfx.length ≤ k → edgeShape pfx = true →
      (∀ ch ∈ pfx, ch = '|' ∨ ch ∈ d.alphabet.asRunes) →
      matchGood pattern m mn →
      matchFrame pattern mn
        (navFromEdge d MatchNavigator.nav false
          (navFromNode d MatchNavigator.nav false fuel) pfx n m mn)
        (wordsFromEdge d (wordsFromNode d fuel) pfx n m) := by
  intro k
  induction k with
  | zero =>
    intro pfx n m mn hk _ _ hgood
    have hpfx : pfx = [] := List.eq_nil_of_length_eq_zero (Nat.le_zero.mp hk)
    subst hpfx
    exact navFromEdge_match_nil d wf fuel pattern hdesc n m mn hgood
  | succ k ih =>
    intro pfx n m mn hk hshape halpha hgood
    cases pfx with
    | nil => exact navFromEdge_match_nil d wf fuel pattern hdesc n m mn hgood
    | cons c rest =>
      obtain ⟨hpat, hlenP, hidx, hpm, hcache⟩ := hgood
      by_cases hacc : mn.index < mn.lenP
      case neg =>
        have hIA : MatchNavigator.nav.IsAccepting mn = false := by
          simp [matchIsAccepting, hacc]
        have hfil : (wordsFromEdge d (wordsFromNode d fuel) (c :: rest) n m).filter
            (matchesPattern pattern) = [] :=
          wordsFilter_edge_too_long d wf fuel (c :: rest) n m pattern hshape halpha
            (by omega)
        have hout : navFromEdge d MatchNavigator.nav false
            (navFromNode d MatchNavigator.nav false fuel) (c :: rest) n m mn = mn := by
          cases rest with
          | nil => rw [navFromEdge_one, if_neg (by simp [hIA])]
          | cons c2 rest2 =>
            by_cases hsep : c2 = '|'
            · subst hsep
              rw [navFromEdge_sep, if_neg (by simp [hIA])]
            · rw [navFromEdge_mid _ _ _ c c2 rest2 n m mn hsep,
                if_neg (by simp [hIA])]
        rw [hout]
        exact ⟨hpat, hlenP, rfl, by simp [hfil]⟩
      case pos =>
        have hIA : MatchNavigator.nav.IsAccepting mn = true := by
          simp [matchIsAccepting, hacc]
        by_cases hok : c ≠ mn.chMatch ∧ ¬(mn.isWildcard = true)
        case pos =>
          have hrej := matchAccepts_reject mn c hok
          have hcne : pattern.getD m.length ' ' ≠ c := by
            rw [← hidx, ← (hcache hacc).1]
            exact fun h => hok.1 h.symm
          have hq : pattern.getD m.length ' ' ≠ '?' := by
            rw [← hidx, ← (hcache hacc).1]
            intro h
            exact hok.2 ((hcache hacc).2 ▸ decide_eq_true h)
          have hfil := wordsFilter_edge_wrong_first d wf fuel c rest n m pattern
            hshape halpha hq hcne
          have hout : navFromEdge d MatchNavigator.nav false
              (navFromNode d MatchNavigator.nav false fuel) (c :: rest) n m mn = mn := by
            cases rest with
            | nil =>
              rw [navFromEdge_one, if_pos hIA, hrej]
              rfl
            | cons c2 rest2 =>
              by_cases hsep : c2 = '|'
              · subst hsep
                rw [navFromEdge_sep, if_pos hIA, hrej]
                rfl
              · rw [navFromEdge_mid _ _ _ c c2 rest2 n m mn hsep, if_pos hIA, hrej]
                rfl
          rw [hout]
          exact ⟨hpat, hlenP, rfl, by simp [hfil]⟩
        case neg =>
          obtain ⟨hAok, hgood1, hstk1, hres1⟩ :=
            matchAccepts_accept pattern m mn c ⟨hpat, hlenP, hidx, hpm, hcache⟩ hacc hok
          cases rest with
          | nil =>
            rw [navFromEdge_one, if_pos hIA, if_pos hAok]
            have hgood2 : matchGood pattern (m ++ [c])
                (MatchNavigator.nav.Accept (MatchNavigator.nav.Accepts mn c).2
                  (m ++ [c]) (n = 0 || d.headerFinal n) none) := by
              rw [matchAccept_eq pattern (m ++ [c]) _ _ none hgood1]
              exact hgood1
            have hstk2 : (MatchNavigator.nav.Accept (MatchNavigator.nav.Accepts mn c).2
                (m ++ [c]) (n = 0 || d.headerFinal n) none).stack = mn.stack := by
              rw [matchAccept_eq pattern (m ++ [c]) _ _ none hgood1]
              exact hstk1
            have hres2 : (MatchNavigator.nav.Accept (MatchNavigator.nav.Accepts mn c).2
                (m ++ [c]) (n = 0 || d.headerFinal n) none).results =
                mn.results ++ List.filter (matchesPattern pattern)
                  (if (n = 0 || d.headerFinal n : Bool) then [m ++ [c]] else []) := by
              rw [matchAccept_eq pattern (m ++ [c]) _ _ none hgood1]
              show (MatchNavigator.nav.Accepts mn c).2.results ++ _ = _
              rw [hres1]
            obtain ⟨g1, g2, g3, g4, g5⟩ := hgood2
            by_cases hn : n = 0
            · rw [if_neg (by simp [hn])]
              refine ⟨g1, g2, hstk2, ?_⟩
              rw [hres2]
              congr 1
              subst hn
              simp [wordsFromEdge]
            · by_cases hacc2 : (MatchNavigator.nav.Accept
                  (MatchNavigator.nav.Accepts mn c).2 (m ++ [c])
                  (n = 0 || d.headerFinal n) none).index <
                  (MatchNavigator.nav.Accept (MatchNavigator.nav.Accepts mn c).2
                    (m ++ [c]) (n = 0 || d.headerFinal n) none).lenP
              · rw [if_pos (by
                    rw [matchIsAccepting]
                    simp only [Bool.and_eq_true, decide_eq_true_eq]
                    exact ⟨hn, hacc2⟩),
                  hdesc n (m ++ [c]) _ ⟨g1, g2, g3, g4, g5⟩ hacc2]
                refine ⟨g1, g2, hstk2, ?_⟩
                show (MatchNavigator.nav.Accept (MatchNavigator.nav.Accepts mn c).2
                    (m ++ [c]) (n = 0 || d.headerFinal n) none).results ++ _ =
                  mn.results ++ _
                rw [hres2, List.append_assoc]
                congr 1
                simp [wordsFromEdge, hn, List.filter_append]
              · rw [if_neg (by
                    rw [matchIsAccepting]
                    simp only [Bool.and_eq_true, decide_eq_true_eq]
                    rintro ⟨-, h⟩
                    exact hacc2 h)]
                have hY : (wordsFromNode d fuel n (m ++ [c])).filter
                    (matchesPattern pattern) = [] :=
                  wordsFilter_node_too_long d wf fuel n (m ++ [c]) pattern (by
                    rw [← g2]
                    have := g3
                    omega)
                refine ⟨g1, g2, hstk2, ?_⟩
                rw [hres2]
                congr 1
                simp [wordsFromEdge, hn, List.filter_append, hY]
          | cons c2 rest2 =>
            have hk2 : rest2.length ≤ k := by simp at hk; omega
            by_cases hsep : c2 = '|'
            · subst hsep
              have hshape2 : edgeShape rest2 = true := by
                rw [edgeShape_cons] at hshape
                exact (by simpa using hshape : ¬c = '|' ∧ edgeShape rest2 = true).2
              rw [navFromEdge_sep, if_pos hIA, if_pos hAok]
              have hgood2 : matchGood pattern (m ++ [c])
                  (MatchNavigator.nav.Accept (MatchNavigator.nav.Accepts mn c).2
                    (m ++ [c]) true none) := by
                rw [matchAccept_eq_true pattern (m ++ [c]) _ none hgood1]
                exact hgood1
              have hstk2 : (MatchNavigator.nav.Accept
                  (MatchNavigator.nav.Accepts mn c).2 (m ++ [c]) true none).stack =
                  mn.stack := by
                rw [matchAccept_eq_true pattern (m ++ [c]) _ none hgood1]
                exact hstk1
              have hres2 : (MatchNavigator.nav.Accept
                  (MatchNavigator.nav.Accepts mn c).2 (m ++ [c]) true none).results =
                  mn.results ++ List.filter (matchesPattern pattern) [m ++ [c]] := by
                rw [matchAccept_eq_true pattern (m ++ [c]) _ none hgood1]
                show (MatchNavigator.nav.Accepts mn c).2.results ++ _ = _
                rw [hres1]
              obtain ⟨p1, p2, p3, p4⟩ := ih rest2 n (m ++ [c]) _ hk2 hshape2
                (fun ch h => halpha ch (by simp [h])) hgood2
              refine ⟨p1, p2, p3.trans hstk2, ?_⟩
              rw [p4, hres2, List.append_assoc]
              congr 1
              rw [show wordsFromEdge d (wordsFromNode d fuel) (c :: '|' :: rest2) n m =
                (m ++ [c]) :: wordsFromEdge d (wordsFromNode d fuel) rest2 n (m ++ [c])
                from rfl]
              rw [show ((m ++ [c]) :: wordsFromEdge d (wordsFromNode d fuel) rest2 n
                  (m ++ [c])) = [m ++ [c]] ++ wordsFromEdge d (wordsFromNode d fuel)
                  rest2 n (m ++ [c]) from rfl, List.filter_append]
            · have hshape2 : edgeShape (c2 :: rest2) = true := by
                rw [edgeShape_cons] at hshape
                simp only [List.headD_cons] at hshape
                rw [if_neg hsep] at hshape
                exact (by simpa using hshape :
                  ¬c = '|' ∧ edgeShape (c2 :: rest2) = true).2
              rw [navFromEdge_mid _ _ _ c c2 rest2 n m mn hsep, if_pos hIA, if_pos hAok,
                matchAccept_eq_false (m ++ [c]) (MatchNavigator.nav.Accepts mn c).2 none,
                wordsFromEdge_mid d (wordsFromNode d fuel) c c2 rest2 n m hsep]
              obtain ⟨p1, p2, p3, p4⟩ := ih (c2 :: rest2) n (m ++ [c]) _
                (by simp only [List.length_cons] at hk ⊢; omega) hshape2
                (fun ch h => halpha ch (by simp at h; rcases h with h | h <;> simp [h]))
                hgood1
              refine ⟨p1, p2, p3.trans hstk1, ?_⟩
              rw [p4, hres1]

theorem matchPushEdge_skip (mn : MatchNavigator) (chr : Char)
    (h : chr ≠ mn.chMatch ∧ ¬(mn.isWildcard = true)) :
    MatchNavigator.nav.PushEdge mn chr = (false, mn) := by
  simp only [MatchNavigator.nav]
  rw [if_pos h]

theorem matchPushEdge_enter (mn : MatchNavigator) (chr : Char)
    (h : ¬(chr ≠ mn.chMatch ∧ ¬(mn.isWildcard = true))) :
    MatchNavigator.nav.PushEdge mn chr =
      (true, { mn with stack := mn.stack ++ [⟨mn.index, mn.chMatch, mn.isWildcard⟩] }) := by
  simp only [MatchNavigator.nav]
  rw [if_neg h]

theorem matchPopEdge_concat (s : MatchNavigator) (l : List matchItem)
    (it : matchItem) (hs : s.stack = l ++ [it]) :
    MatchNavigator.nav.PopEdge s =
      (it.isWildcard,
        { s with
          index := it.index
          chMatch := it.chMatch
          isWildcard := it.isWildcard
          stack := l }) := by
  simp only [MatchNavigator.nav]
  rw [hs, List.getLast?_concat, List.dropLast_concat]

theorem navEdgeLoop_cons (nv : Navigator σ)
    (walk : List Char → Nat → List Char → σ → σ)
    (e : NavEdge) (rest : List NavEdge) (matched : List Char) (s : σ) :
    navEdgeLoop nv walk (e :: rest) matched s =
      (if (nv.PushEdge s (e.pfx.headD ' ')).1 then
        if (nv.PopEdge (walk e.pfx e.nextNode matched
            (nv.PushEdge s (e.pfx.headD ' ')).2)).1 then
          navEdgeLoop nv walk rest matched
            (nv.PopEdge (walk e.pfx e.nextNode matched
              (nv.PushEdge s (e.pfx.headD ' ')).2)).2
        else (nv.PopEdge (walk e.pfx e.nextNode matched
          (nv.PushEdge s (e.pfx.headD ' ')).2)).2
      else navEdgeLoop nv walk rest matched
        (nv.PushEdge s (e.pfx.headD ' ')).2) := rfl

theorem navEdgeLoop_cons_skip
    (walk : List Char → Nat → List Char → MatchNavigator → MatchNavigator)
    (e : NavEdge) (rest : List NavEdge) (m : List Char) (mn : MatchNavigator)
    (hpush : e.pfx.headD ' ' ≠ mn.chMatch ∧ ¬(mn.isWildcard = true)) :
    navEdgeLoop MatchNavigator.nav walk (e :: rest) m mn =
      navEdgeLoop MatchNavigator.nav walk rest m mn := by
  rw [navEdgeLoop_cons, matchPushEdge_skip mn _ hpush]
  rfl

theorem navEdgeLoop_cons_enter
    (walk : List Char → Nat → List Char → MatchNavigator → MatchNavigator)
    (e : NavEdge) (rest : List NavEdge) (m : List Char) (mn : MatchNavigator)
    (hpush : ¬(e.pfx.headD ' ' ≠ mn.chMatch ∧ ¬(mn.isWildcard = true)))
    (out : MatchNavigator)
    (hout : walk e.pfx e.nextNode m
      { mn with stack := mn.stack ++ [⟨mn.index, mn.chMatch, mn.isWildcard⟩] } = out)
    (hstk : out.stack = mn.stack ++ [⟨mn.index, mn.chMatch, mn.isWildcard⟩]) :
    navEdgeLoop MatchNavigator.nav walk (e :: rest) m mn =
      (if mn.isWildcard = true then
        navEdgeLoop MatchNavigator.nav walk rest m
          { out with
            index := mn.index
            chMatch := mn.chMatch
            isWildcard := mn.isWildcard
            stack := mn.stack }
      else
        { out with
          index := mn.index
          chMatch := mn.chMatch
          isWildcard := mn.isWildcard
          stack := mn.stack }) := by
  rw [navEdgeLoop_cons, matchPushEdge_enter mn _ hpush]
  dsimp only
  rw [hout, matchPopEdge_concat out mn.stack ⟨mn.index, mn.chMatch, mn.isWildcard⟩ hstk]
  dsimp only
  rw [if_pos rfl]

theorem filter_flatMap_nil {α β : Type} (l : List α) (f : α → List β)
    (p : β → Bool) (h : ∀ a ∈ l, (f a).filter p = []) :
    (l.flatMap f).filter p = [] := by
  induction l with
  | nil => rfl
  | cons a as ihl =>
    rw [List.flatMap_cons, List.filter_append, h a (by simp),
      ihl (fun a ha => h a (by simp [ha]))]
    rfl

theorem loopWords_cons (d : Dawg) (fuel : Nat) (e : NavEdge)
    (rest : List NavEdge) (m : List Char) :
    loopWords d fuel (e :: rest) m =
      wordsFromEdge d (wordsFromNode d fuel) e.pfx e.nextNode m ++
        loopWords d fuel rest m := by
  simp [loopWords]

theorem navEdgeLoop_cons_enter_frame
    (walk : List Char → Nat → List Char → MatchNavigator → MatchNavigator)
    (e : NavEdge) (rest : List NavEdge) (m : List Char) (mn : MatchNavigator)
    (hpush : ¬(e.pfx.headD ' ' ≠ mn.chMatch ∧ ¬(mn.isWildcard = true)))
    (out : MatchNavigator)
    (hout : walk e.pfx e.nextNode m
      { mn with stack := mn.stack ++ [⟨mn.index, mn.chMatch, mn.isWildcard⟩] } = out)
    (hstk : out.stack = mn.stack ++ [⟨mn.index, mn.chMatch, mn.isWildcard⟩])
    (r : List (List Char)) (hres : out.results = r)
    (hp : out.pattern = mn.pattern) (hl : out.lenP = mn.lenP) :
    navEdgeLoop MatchNavigator.nav walk (e :: rest) m mn =
      (if mn.isWildcard = true then
        navEdgeLoop MatchNavigator.nav walk rest m { mn with results := r }
      else { mn with results := r }) := by
  rw [navEdgeLoop_cons_enter walk e rest m mn hpush out hout hstk]
  have h3 : ({ out with index := mn.index, chMatch := mn.chMatch, isWildcard := mn.isWildcard, stack := mn.stack } : MatchNavigator) = { mn with results := r } :=
    matchNavigator_ext _ _ hp hl rfl rfl rfl rfl hres
  rw [h3]

theorem navEdgeLoop_match (d : Dawg) (wf : DawgWF d) (fuel : Nat)
    (pattern : List Char)
    (hdesc : ∀ (n : Nat) (m' : List Char) (s' : MatchNavigator),
      matchGood pattern m' s' → s'.index < s'.lenP →
      navFromNode d MatchNavigator.nav false fuel n m' s' =
        { s' with results := s'.results ++
            (wordsFromNode d fuel n m').filter (matchesPattern pattern) }) :
    ∀ (es : List NavEdge) (m : List Char) (mn : MatchNavigator),
      (∀ e ∈ es, e.pfx ≠ [] ∧ edgeShape e.pfx = true ∧
        ∀ ch ∈ e.pfx, ch = '|' ∨ ch ∈ d.alphabet.asRunes) →
      (es.map (fun e => e.pfx.headD ' ')).Nodup →
      matchGood pattern m mn → mn.index < mn.lenP →
      navEdgeLoop MatchNavigator.nav
        (navFromEdge d MatchNavigator.nav false
          (navFromNode d MatchNavigator.nav false fuel)) es m mn =
        { mn with results := mn.results ++
            (loopWords d fuel es m).filter (matchesPattern pattern) } := by
  intro es
  induction es with
  | nil =>
    intro m mn _ _ _ _
    simp [navEdgeLoop, loopWords]
  | cons e rest ihl =>
    intro m mn hedges hnodup hgood hacc
    obtain ⟨hpat, hlenP, hidx, hpm, hcache⟩ := hgood
    obtain ⟨hpfxne, hshape, halpha⟩ := hedges e (by simp)
    obtain ⟨c, pfxrest, hpfx⟩ : ∃ a r, e.pfx = a :: r := by
      cases hc : e.pfx with
      | nil => exact absurd hc hpfxne
      | cons a b => exact ⟨a, b, rfl⟩
    have hhead : e.pfx.headD ' ' = c := by rw [hpfx]; rfl
    have hnodup' : (rest.map (fun e => e.pfx.headD ' ')).Nodup := by
      rw [List.map_cons, List.nodup_cons] at hnodup
      exact hnodup.2
    by_cases hpush : e.pfx.headD ' ' ≠ mn.chMatch ∧ ¬(mn.isWildcard = true)
    · -- edge skipped: its first rune cannot match the pattern position
      rw [navEdgeLoop_cons_skip _ e rest m mn hpush]
      have hcne : pattern.getD m.length ' ' ≠ c := by
        rw [← hidx, ← (hcache hacc).1]
        rw [hhead] at hpush
        exact fun h => hpush.1 h.symm
      have hq : pattern.getD m.length ' ' ≠ '?' := by
        rw [← hidx, ← (hcache hacc).1]
        intro h
        exact hpush.2 ((hcache hacc).2 ▸ decide_eq_true h)
      have hfil : (wordsFromEdge d (wordsFromNode d fuel) e.pfx e.nextNode m).filter
          (matchesPattern pattern) = [] := by
        rw [hpfx]
        exact wordsFilter_edge_wrong_first d wf fuel c pfxrest e.nextNode m pattern
          (hpfx ▸ hshape) (hpfx ▸ halpha) hq hcne
      rw [ihl m mn (fun e' he' => hedges e' (by simp [he'])) hnodup'
        ⟨hpat, hlenP, hidx, hpm, hcache⟩ hacc]
      congr 1
      rw [loopWords_cons, List.filter_append, hfil, List.nil_append]
    · -- edge entered
      obtain ⟨q1, q2, q3, q4⟩ := navFromEdge_match d wf fuel pattern hdesc
        e.pfx.length e.pfx e.nextNode m
        { mn with stack := mn.stack ++ [⟨mn.index, mn.chMatch, mn.isWildcard⟩] }
        le_rfl hshape halpha ⟨hpat, hlenP, hidx, hpm, hcache⟩
      rw [navEdgeLoop_cons_enter_frame _ e rest m mn hpush _ rfl q3
        (mn.results ++ (wordsFromEdge d (wordsFromNode d fuel) e.pfx e.nextNode
          m).filter (matchesPattern pattern)) q4
        (q1.trans hpat.symm) (q2.trans hlenP.symm)]
      by_cases hwild : mn.isWildcard = true
      · rw [if_pos hwild]
        rw [ihl m { mn with results := mn.results ++ (wordsFromEdge d (wordsFromNode d fuel) e.pfx e.nextNode m).filter (matchesPattern pattern) } (fun e' he' => hedges e' (by simp [he'])) hnodup' ⟨hpat, hlenP, hidx, hpm, hcache⟩ hacc]
        apply matchNavigator_ext <;>
          simp [loopWords_cons, List.filter_append]
      · rw [if_neg hwild]
        have hcm : c = mn.chMatch := by
          rcases not_and_or.mp hpush with h | h
          · rw [← hhead]; exact not_not.mp h
          · exact absurd (not_not.mp h) hwild
        have hq : pattern.getD m.length ' ' ≠ '?' := by
          rw [← hidx, ← (hcache hacc).1]
          intro h
          exact hwild ((hcache hacc).2.trans (decide_eq_true h))
        have hrest : ∀ e' ∈ rest,
            (wordsFromEdge d (wordsFromNode d fuel) e'.pfx e'.nextNode m).filter
              (matchesPattern pattern) = [] := by
          intro e' he'
          obtain ⟨hpfxne', hshape', halpha'⟩ := hedges e' (by simp [he'])
          obtain ⟨c', pfxrest', hpfx'⟩ : ∃ a r, e'.pfx = a :: r := by
            cases hc' : e'.pfx with
            | nil => exact absurd hc' hpfxne'
            | cons a b => exact ⟨a, b, rfl⟩
          have hne : c' ≠ c := by
            intro hcc
            have h1 : e'.pfx.headD ' ' = c := by rw [hpfx', hcc]; rfl
            rw [List.map_cons, List.nodup_cons] at hnodup
            exact hnodup.1 (by
              rw [hhead, ← h1]
              exact List.mem_map.mpr ⟨e', he', rfl⟩)
          have hcne' : pattern.getD m.length ' ' ≠ c' := by
            rw [← hidx, ← (hcache hacc).1, ← hcm]
            exact fun h => hne h.symm
          rw [hpfx']
          exact wordsFilter_edge_wrong_first d wf fuel c' pfxrest' e'.nextNode m
            pattern (hpfx' ▸ hshape') (hpfx' ▸ halpha') hq hcne'
        have hrestnil : (loopWords d fuel rest m).filter
            (matchesPattern pattern) = [] :=
          filter_flatMap_nil rest _ _ hrest
        apply matchNavigator_ext <;>
          simp [loopWords_cons, List.filter_append, hrestnil]

theorem navFromNode_match (d : Dawg) (wf : DawgWF d) (pattern : List Char) :
    ∀ (fuel offset : Nat) (m : List Char) (mn : MatchNavigator),
      matchGood pattern m mn → mn.index < mn.lenP →
      navFromNode d MatchNavigator.nav false fuel offset m mn =
        { mn with results := mn.results ++
            (wordsFromNode d fuel offset m).filter (matchesPattern pattern) } := by
  intro fuel
  induction fuel with
  | zero =>
    intro offset m mn _ _
    simp [navFromNode, wordsFromNode]
  | succ fuel ihf =>
    intro offset m mn hgood hacc
    show navEdgeLoop _ _ (d.edges offset) m mn = _
    rw [navEdgeLoop_match d wf fuel pattern ihf (d.edges offset) m mn
      (fun e he => ⟨wf.edgeNonempty offset e he, wf.edgeShaped offset e he,
        wf.edgeAlpha offset e he⟩)
      (wf.distinctFirst offset) hgood hacc]
    rfl

theorem headD_eq_getD_zero (l : List Char) (dflt : Char) :
    l.headD dflt = l.getD 0 dflt := by
  cases l <;> rfl

theorem matchRunes_filter (d : Dawg) (wf : DawgWF d) (pattern : List Char)
    (hp : pattern ≠ []) :
    d.MatchRunes pattern = (dawgWords d).filter (matchesPattern pattern) := by
  have hgood0 : matchGood pattern [] (MatchNavigator.Init pattern) := by
    refine ⟨rfl, rfl, rfl, partMatches_nil pattern, fun _ => ⟨?_, rfl⟩⟩
    exact headD_eq_getD_zero pattern ' '
  have hacc0 : (MatchNavigator.Init pattern).index <
      (MatchNavigator.Init pattern).lenP := by
    show 0 < pattern.length
    exact List.length_pos.mpr hp
  show (Navigation.Go d MatchNavigator.nav false d.fuel
    (MatchNavigator.Init pattern)).results = _
  unfold Navigation.Go
  rw [if_pos (by
    rw [matchIsAccepting]
    exact decide_eq_true hacc0)]
  show (navFromNode d MatchNavigator.nav false d.fuel 0 []
    (MatchNavigator.Init pattern)).results = _
  rw [navFromNode_match d wf pattern d.fuel 0 [] (MatchNavigator.Init pattern)
    hgood0 hacc0]
  rfl

theorem matchRunes_mem (d : Dawg) (wf : DawgWF d) (pattern : List Char)
    (hp : pattern ≠ []) (w : List Char) :
    w ∈ d.MatchRunes pattern ↔
      w ∈ dawgWords d ∧ matchesPattern pattern w = true := by
  rw [matchRunes_filter d wf pattern hp]
  exact List.mem_filter

theorem partMatches_noWild (p m : List Char) (hp : '?' ∉ p)
    (hpm : partMatches p m = true) (hlen : m.length = p.length) : m = p := by
  induction p generalizing m with
  | nil => exact List.eq_nil_of_length_eq_zero hlen
  | cons q qs ihp =>
    cases m with
    | nil => simp at hlen
    | cons a as =>
      simp only [partMatches, Bool.and_eq_true, Bool.or_eq_true,
        decide_eq_true_eq] at hpm
      have hq : q ≠ '?' := fun h => hp (by simp [h])
      have ha : q = a := by
        rcases hpm.1 with h | h
        · exact absurd h hq
        · exact h
      have : as = qs := ihp as (fun h => hp (by simp [h])) hpm.2 (by simpa using hlen)
      rw [ha, this]

theorem partMatches_refl_noWild (p : List Char) (hp : '?' ∉ p) :
    partMatches p p = true := by
  induction p with
  | nil => rfl
  | cons q qs ihp =>
    have hqs := ihp (fun h => hp (by simp [h]))
    simp [partMatches, hqs]

theorem partMatches_append_left (l p m : List Char) (hl : '?' ∉ l) :
    partMatches (l ++ p) (l ++ m) = partMatches p m := by
  induction l with
  | nil => rfl
  | cons a as ihl =>
    have ha : ¬(a = '?') := fun h => hl (by simp [h])
    show ((decide (a = '?') || decide (a = a)) &&
      partMatches (as ++ p) (as ++ m)) = partMatches p m
    rw [ihl (fun h => hl (by simp [h]))]
    simp [ha]

theorem partMatches_take_front (l p m1 m2 : List Char)
    (hpm : partMatches (l ++ p) (m1 ++ m2) = true)
    (hlen : m1.length = l.length) : partMatches l m1 = true := by
  induction l generalizing m1 with
  | nil =>
    cases m1 with
    | nil => rfl
    | cons b bs => simp at hlen
  | cons a as ihl =>
    cases m1 with
    | nil => simp at hlen
    | cons b bs =>
      have hpm' : ((decide (a = '?') || decide (a = b)) &&
          partMatches (as ++ p) (bs ++ m2)) = true := hpm
      show ((decide (a = '?') || decide (a = b)) && partMatches as bs) = true
      simp only [Bool.and_eq_true] at hpm' ⊢
      exact ⟨hpm'.1, ihl bs hpm'.2 (by simpa using hlen)⟩

theorem matchesPattern_mid (lft rgt w : List Char)
    (hL : '?' ∉ lft) (hR : '?' ∉ rgt) :
    matchesPattern (lft ++ '?' :: rgt) w = true ↔
      ∃ x : Char, w = lft ++ x :: rgt := by
  constructor
  · intro h
    simp only [matchesPattern, Bool.and_eq_true, decide_eq_true_eq] at h
    obtain ⟨hlen, hpm⟩ := h
    have hwlen : lft.length ≤ w.length := by
      rw [hlen]
      simp only [List.length_append, List.length_cons]
      omega
    obtain ⟨w1, w2, hw, hw1len⟩ :
        ∃ w1 w2, w = w1 ++ w2 ∧ w1.length = lft.length :=
      ⟨w.take lft.length, w.drop lft.length, (List.take_append_drop _ w).symm,
        List.length_take_of_le hwlen⟩
    subst hw
    have hw1 : w1 = lft :=
      partMatches_noWild lft w1 hL
        (partMatches_take_front lft ('?' :: rgt) w1 w2 hpm hw1len) hw1len
    rw [hw1] at hpm hlen ⊢
    rw [partMatches_append_left lft ('?' :: rgt) w2 hL] at hpm
    cases w2 with
    | nil =>
      exfalso
      rw [List.length_append, List.length_append] at hlen
      simp at hlen
    | cons x xs =>
      refine ⟨x, ?_⟩
      have hpm' : ((decide (x = '?') || true) && partMatches rgt xs) = true := by
        have hcc : partMatches ('?' :: rgt) (x :: xs) = true := hpm
        simpa [partMatches] using hcc
      have hxs : xs = rgt := by
        apply partMatches_noWild rgt xs hR (by simpa using hpm')
        rw [List.length_append, List.length_append] at hlen
        simpa using hlen
      rw [hxs]
  · rintro ⟨x, rfl⟩
    simp only [matchesPattern, Bool.and_eq_true, decide_eq_true_eq]
    refine ⟨by simp, ?_⟩
    rw [partMatches_append_left lft ('?' :: rgt) (x :: rgt) hL]
    have : partMatches ('?' :: rgt) (x :: rgt) =
        ((decide ('?' = '?') || decide ('?' = x)) && partMatches rgt rgt) := rfl
    rw [this]
    simp [partMatches_refl_noWild rgt hR]

theorem getD_append_mid (lft rgt : List Char) (x : Char) :
    (lft ++ x :: rgt).getD lft.length ' ' = x := by
  induction lft with
  | nil => rfl
  | cons a as ihl => simpa using ihl

theorem foldlEnumFrom_spec (r : Char) :
    ∀ (l : List Char) (k acc : Nat),
      ((l.enumFrom k).foldl
          (fun a p => if p.2 = r then 1 <<< p.1 else a) acc = acc ∧ r ∉ l) ∨
      (∃ i, i < l.length ∧ l.getD i ' ' = r ∧
        (l.enumFrom k).foldl
          (fun a p => if p.2 = r then 1 <<< p.1 else a) acc = 1 <<< (k + i)) := by
  intro l
  induction l with
  | nil =>
    intro k acc
    left
    exact ⟨rfl, by simp⟩
  | cons c cs ihl =>
    intro k acc
    simp only [List.enumFrom_cons, List.foldl_cons]
    by_cases hc : c = r
    · rw [if_pos hc]
      rcases ihl (k + 1) (1 <<< k) with ⟨hf, _⟩ | ⟨i, hi, hgd, hf⟩
      · right
        exact ⟨0, by simp, by simpa using hc, by simpa using hf⟩
      · right
        refine ⟨i + 1, by simpa using hi, by simpa using hgd, ?_⟩
        rw [hf]
        congr 1
        omega
    · rw [if_neg hc]
      rcases ihl (k + 1) acc with ⟨hf, hnm⟩ | ⟨i, hi, hgd, hf⟩
      · left
        refine ⟨hf, ?_⟩
        intro hmem
        rcases List.mem_cons.mp hmem with h | h
        · exact hc h.symm
        · exact hnm h
      · right
        refine ⟨i + 1, by simpa using hi, by simpa using hgd, ?_⟩
        rw [hf]
        congr 1
        omega

theorem bitMap_not_mem (a : Alphabet) (r : Char) (h : r ∉ a.asRunes) :
    a.bitMap r = 0 := by
  rcases foldlEnumFrom_spec r a.asRunes 0 0 with ⟨hf, _⟩ | ⟨i, hi, hgd, _⟩
  · exact hf
  · exfalso
    apply h
    rw [List.getD_eq_getElem a.asRunes ' ' hi] at hgd
    exact hgd ▸ List.getElem_mem hi

theorem bitMap_mem (a : Alphabet) (r : Char) (h : r ∈ a.asRunes) :
    ∃ i, i < a.asRunes.length ∧ a.asRunes.getD i ' ' = r ∧
      a.bitMap r = 1 <<< i := by
  rcases foldlEnumFrom_spec r a.asRunes 0 0 with ⟨_, hnm⟩ | ⟨i, hi, hgd, hf⟩
  · exact absurd h hnm
  · exact ⟨i, hi, hgd, by simpa using hf⟩

theorem makeSetAux_no_wild (a : Alphabet) :
    ∀ (runes : List Char) (s : Nat), '?' ∉ runes →
      a.makeSetAux runes s =
        runes.foldl (fun acc r => acc ||| a.bitMap r) s := by
  intro runes
  induction runes with
  | nil => intro s _; rfl
  | cons r rs ihr =>
    intro s h
    have hr : ¬(r = '?') := fun hh => h (by simp [hh])
    show (if r = '?' then a.allSet else a.makeSetAux rs (s ||| a.bitMap r)) = _
    rw [if_neg hr]
    exact ihr _ (fun hh => h (by simp [hh]))

theorem foldl_or_testBit (a : Alphabet) :
    ∀ (runes : List Char) (s : Nat) (i : Nat),
      (runes.foldl (fun acc r => acc ||| a.bitMap r) s).testBit i =
        (s.testBit i || runes.any (fun r => (a.bitMap r).testBit i)) := by
  intro runes
  induction runes with
  | nil => intro s i; simp
  | cons r rs ihr =>
    intro s i
    show (rs.foldl _ (s ||| a.bitMap r)).testBit i = _
    rw [ihr (s ||| a.bitMap r) i, Nat.testBit_or]
    simp [Bool.or_assoc]

theorem exists_testBit_of_ne_zero (n : Nat) (h : n ≠ 0) :
    ∃ i, n.testBit i = true := by
  by_contra hc
  push_neg at hc
  apply h
  apply Nat.eq_of_testBit_eq
  intro i
  rw [Nat.zero_testBit]
  exact Bool.not_eq_true _ ▸ hc i

theorem shiftLeft_one_eq (i : Nat) : (1 <<< i) = 2 ^ i := by
  rw [Nat.shiftLeft_eq, one_mul]

theorem member_makeSet (a : Alphabet) (runes : List Char)
    (hnw : '?' ∉ runes) (hr : ∀ r ∈ runes, r ∈ a.asRunes) (x : Char) :
    a.Member x (a.MakeSet runes) = true ↔ x ∈ runes := by
  show decide (a.makeSetAux runes 0 &&& a.bitMap x ≠ 0) = true ↔ _
  rw [makeSetAux_no_wild a runes 0 hnw, decide_eq_true_eq]
  constructor
  · intro hne
    by_cases hxa : x ∈ a.asRunes
    · obtain ⟨ix, hix, hgx, hbx⟩ := bitMap_mem a x hxa
      obtain ⟨i, hib⟩ := exists_testBit_of_ne_zero _ hne
      rw [Nat.testBit_and, Bool.and_eq_true] at hib
      have hieq : i = ix := by
        have := hib.2
        rw [hbx, shiftLeft_one_eq, Nat.testBit_two_pow] at this
        exact (of_decide_eq_true this).symm
      subst hieq
      have hS := hib.1
      rw [foldl_or_testBit a runes 0 i, Nat.zero_testBit, Bool.false_or,
        List.any_eq_true] at hS
      obtain ⟨r, hrr, hrb⟩ := hS
      obtain ⟨ir, hir, hgr, hbr⟩ := bitMap_mem a r (hr r hrr)
      rw [hbr, shiftLeft_one_eq, Nat.testBit_two_pow] at hrb
      have : ir = i := of_decide_eq_true hrb
      subst this
      have : r = x := by rw [← hgr, hgx]
      exact this ▸ hrr
    · rw [bitMap_not_mem a x hxa, Nat.and_zero] at hne
      exact absurd rfl hne
  · intro hmem
    have hxa : x ∈ a.asRunes := hr x hmem
    obtain ⟨ix, hix, hgx, hbx⟩ := bitMap_mem a x hxa
    intro heq
    have : (runes.foldl (fun acc r => acc ||| a.bitMap r) 0 &&&
        a.bitMap x).testBit ix = false := by
      rw [heq, Nat.zero_testBit]
    rw [Nat.testBit_and, Bool.and_eq_false_iff] at this
    rcases this with h | h
    · rw [foldl_or_testBit a runes 0 ix, Nat.zero_testBit, Bool.false_or] at h
      rw [List.any_eq_false] at h
      exact absurd (by
        rw [hbx, shiftLeft_one_eq, Nat.testBit_two_pow]
        simp) (h x hmem)
    · rw [hbx, shiftLeft_one_eq, Nat.testBit_two_pow] at h
      simp at h

theorem crossSet_mem (d : Dawg) (wf : DawgWF d) (lft rgt : List Char)
    (hL : '?' ∉ lft) (hR : '?' ∉ rgt) (x : Char) :
    d.alphabet.Member x (d.CrossSet lft rgt) = true ↔
      (lft ++ x :: rgt) ∈ dawgWords d := by
  have hp : lft ++ '?' :: rgt ≠ [] := by simp
  have hkey : lft ++ ['?'] ++ rgt = lft ++ '?' :: rgt := by simp
  show d.alphabet.Member x (d.alphabet.MakeSet
    ((d.MatchRunes (lft ++ ['?'] ++ rgt)).map
      (fun m => m.getD lft.length ' '))) = true ↔ _
  rw [hkey]
  have hchars : ∀ r ∈ (d.MatchRunes (lft ++ '?' :: rgt)).map
      (fun m => m.getD lft.length ' '), r ∈ d.alphabet.asRunes := by
    intro r hrr
    obtain ⟨w, hw, hwr⟩ := List.mem_map.mp hrr
    obtain ⟨hwd, hwm⟩ := (matchRunes_mem d wf _ hp w).mp hw
    obtain ⟨y, hy⟩ := (matchesPattern_mid lft rgt w hL hR).mp hwm
    subst hy
    rw [getD_append_mid] at hwr
    rw [← hwr]
    obtain ⟨suf, hsuf, _, hch⟩ := wordsFromNode_spec d wf d.fuel 0 [] _ hwd
    apply hch
    have hsuf' : lft ++ y :: rgt = suf := by simpa using hsuf
    rw [← hsuf']
    simp
  have hnw : '?' ∉ (d.MatchRunes (lft ++ '?' :: rgt)).map
      (fun m => m.getD lft.length ' ') := by
    intro hq
    exact wf.alphaNoWild (hchars '?' hq)
  rw [member_makeSet d.alphabet _ hnw hchars x]
  constructor
  · intro hmem
    obtain ⟨w, hw, hwr⟩ := List.mem_map.mp hmem
    obtain ⟨hwd, hwm⟩ := (matchRunes_mem d wf _ hp w).mp hw
    obtain ⟨y, hy⟩ := (matchesPattern_mid lft rgt w hL hR).mp hwm
    subst hy
    rw [getD_append_mid] at hwr
    rw [hwr] at hwd
    exact hwd
  · intro hwd
    apply List.mem_map.mpr
    refine ⟨lft ++ x :: rgt, ?_, getD_append_mid lft rgt x⟩
    apply (matchRunes_mem d wf _ hp _).mpr
    exact ⟨hwd, (matchesPattern_mid lft rgt _ hL hR).mpr ⟨x, rfl⟩⟩

theorem abDawg_wf : DawgWF abDawg := by
  have hedges : ∀ n : Nat, ∀ e ∈ abDawg.edges n,
      e = (⟨['a', 'b', '|'], 0⟩ : NavEdge) := by
    intro n e he
    by_cases hn : n = 0
    · subst hn
      simpa [abDawg] using he
    · simp [abDawg, hn] at he
  refine ⟨by decide, by decide, by decide, ?_, ?_, ?_, ?_⟩
  · intro n e he
    rw [hedges n e he]
    decide
  · intro n e he
    rw [hedges n e he]
    show edgeShape ['a', 'b', '|'] = true
    rw [edgeShape_cons]
    simp only [List.headD_cons]
    rw [if_neg (by decide)]
    rw [edgeShape_cons]
    simp only [List.headD_cons]
    rw [if_pos (by decide)]
    simp only [List.tail_cons]
    rw [edgeShape]
    decide
  · intro n e he
    rw [hedges n e he]
    decide
  · intro n
    by_cases hn : n = 0
    · subst hn
      show (([⟨['a', 'b', '|'], 0⟩] : List NavEdge).map
        (fun e => e.pfx.headD ' ')).Nodup
      decide
    · show ((abDawg.edges n).map (fun e => e.pfx.headD ' ')).Nodup
      have : abDawg.edges n = [] := by simp [abDawg, hn]
      rw [this]
      decide

/-- C3: cross-check exactness.  For every board square `s` and axis
orientation, with `(left, right)` the perpendicular cross-word
fragments at `s` in reading order (real letters, no wildcards, as
board tiles always carry), a letter `x`'s bit is set in the cross-set
computed for `s` on the axis if and only if `left ++ x ++ right` is a
word encoded in the DAWG; and when both fragments are empty the
cross-set is the full 64-bit mask (no constraint). -/
theorem C3_crossSet_exact (axis : Axis) (sq : Square)
    (wf : DawgWF axis.state.dawg)
    (hL : '?' ∉ (axis.state.board.CrossWords sq.row sq.col (!axis.horizontal)).1)
    (hR : '?' ∉ (axis.state.board.CrossWords sq.row sq.col (!axis.horizontal)).2) :
    ((axis.state.board.CrossWords sq.row sq.col (!axis.horizontal)).1 = [] ∧
      (axis.state.board.CrossWords sq.row sq.col (!axis.horizontal)).2 = [] →
      axis.crossSet sq = UINT_MAX) ∧
    (¬((axis.state.board.CrossWords sq.row sq.col (!axis.horizontal)).1 = [] ∧
        (axis.state.board.CrossWords sq.row sq.col (!axis.horizontal)).2 = []) →
      ∀ x : Char,
        axis.state.dawg.alphabet.Member x (axis.crossSet sq) = true ↔
          ((axis.state.board.CrossWords sq.row sq.col (!axis.horizontal)).1 ++
            x :: (axis.state.board.CrossWords sq.row sq.col (!axis.horizontal)).2) ∈
            dawgWords axis.state.dawg) := by
  constructor
  · rintro ⟨h1, h2⟩
    show axisCrossSet axis.state axis.horizontal sq = UINT_MAX
    unfold axisCrossSet
    rw [if_pos ⟨by rw [h1]; rfl, by rw [h2]; rfl⟩]
  · intro hne x
    have hlen : ¬((axis.state.board.CrossWords sq.row sq.col
        (!axis.horizontal)).1.length = 0 ∧
        (axis.state.board.CrossWords sq.row sq.col
          (!axis.horizontal)).2.length = 0) := by
      rintro ⟨h1, h2⟩
      exact hne ⟨List.length_eq_zero.mp h1, List.length_eq_zero.mp h2⟩
    show axis.state.dawg.alphabet.Member x
      (axisCrossSet axis.state axis.horizontal sq) = true ↔ _
    unfold axisCrossSet
    rw [if_neg hlen]
    exact crossSet_mem axis.state.dawg wf _ _ hL hR x

/-- Witness for C3 at the concrete scenario: on the horizontal axis of
row 4 the square (4,2) sits above the `b` of the board, its fragments
are nonempty, and the bit of `a` in its cross-set decides membership
of "ab" in the dictionary. -/
theorem C3_crossSet_exact_witness :
    ¬((c3Axis.state.board.CrossWords c3Sq.row c3Sq.col (!c3Axis.horizontal)).1 = [] ∧
      (c3Axis.state.board.CrossWords c3Sq.row c3Sq.col (!c3Axis.horizontal)).2 = []) ∧
    (c3Axis.state.dawg.alphabet.Member 'a' (c3Axis.crossSet c3Sq) = true ↔
      ((c3Axis.state.board.CrossWords c3Sq.row c3Sq.col (!c3Axis.horizontal)).1 ++
        'a' :: (c3Axis.state.board.CrossWords c3Sq.row c3Sq.col
          (!c3Axis.horizontal)).2) ∈ dawgWords c3Axis.state.dawg) :=
  ⟨by decide,
    (C3_crossSet_exact c3Axis c3Sq abDawg_wf (by decide) (by decide)).2
      (by decide) 'a'⟩

end GoSkrafl
